import Mathlib

set_option maxRecDepth 100000

/-!
Verification of the LiftOff RAG ingestion pipeline
(`backend/scripts/ingestPDFs.py`).

Strings are modelled as `List Char` (`PyStr`), matching Python `str`
semantics on the ASCII range (the character-class predicates `\s`, `\d`,
`\w`, `isupper`, … are embedded for ASCII characters).  Each `re.sub`
call of the source is embedded as a scanner with Python's leftmost /
greedy / continue-after-match semantics for the concrete pattern used.
-/

namespace Ingest

abbrev PyStr := List Char

def pstr (s : String) : PyStr := s.data

/-- Python `str.isspace` / regex `\s` characters (ASCII). -/
def pyIsSpace (c : Char) : Bool :=
  c == ' ' || c == '\t' || c == '\n' || c == '\r' || c == '\x0c' || c == '\x0b'

/-- regex `\d` (ASCII). -/
def pyIsDigit (c : Char) : Bool := '0' ≤ c && c ≤ '9'

/-- regex `\w` (ASCII): letters, digits, underscore. -/
def pyIsWord (c : Char) : Bool := c.isAlpha || pyIsDigit c || c == '_'

/-- Python `str.lstrip()` (no argument: strip whitespace). -/
def pyLStrip (s : PyStr) : PyStr := s.dropWhile pyIsSpace

/-- Python `str.rstrip()`. -/
def pyRStrip (s : PyStr) : PyStr := (s.reverse.dropWhile pyIsSpace).reverse

/-- Python `str.strip()`. -/
def pyStrip (s : PyStr) : PyStr := pyRStrip (pyLStrip s)

/-- Python `str.split("\n")`: split at every newline, keeping empty pieces. -/
def pySplitNl : PyStr → List PyStr
  | [] => [[]]
  | c :: t =>
    match pySplitNl t with
    | [] => [[c]]
    | h :: hs => if c = '\n' then [] :: h :: hs else (c :: h) :: hs

/-- Python `"\n".join(...)`. -/
def pyJoinNl : List PyStr → PyStr
  | [] => []
  | [l] => l
  | l :: ls => l ++ '\n' :: pyJoinNl ls

/-- Helper for Python `str.split()`: `acc` is the word currently being
collected, reversed. -/
def pyWordsAux : PyStr → PyStr → List PyStr
  | [], acc => if acc.isEmpty then [] else [acc.reverse]
  | c :: t, acc =>
    if pyIsSpace c then
      if acc.isEmpty then pyWordsAux t [] else acc.reverse :: pyWordsAux t []
    else pyWordsAux t (c :: acc)

/-- Python `str.split()` (no argument): maximal runs of non-whitespace
characters, in order; no empty pieces. -/
def pyWords (s : PyStr) : List PyStr := pyWordsAux s []

/-- Python `str.isupper()` (ASCII model): at least one letter and no
lowercase letter. -/
def pyIsUpperStr (s : PyStr) : Bool :=
  s.any Char.isAlpha && s.all (fun c => !c.isLower)

/-- `text.replace("\r\n", "\n")`: leftmost, non-overlapping. -/
def replCRLF : PyStr → PyStr
  | '\r' :: '\n' :: t => '\n' :: replCRLF t
  | c :: t => c :: replCRLF t
  | [] => []

/-- `text.replace("\r", "\n")`. -/
def replCR : PyStr → PyStr
  | '\r' :: t => '\n' :: replCR t
  | c :: t => c :: replCR t
  | [] => []

/-- `text.replace("\f", "\n\n")`. -/
def replFF : PyStr → PyStr
  | '\x0c' :: t => '\n' :: '\n' :: replFF t
  | c :: t => c :: replFF t
  | [] => []

/-! ### `clean_text` step 3: `re.sub(r"(\w)-\n(\w)", r"\1\2", text)`

The pattern is four characters long; `re.sub` scans left to right and
resumes after each match, so in `a-\nb-\nc` the character `b` is consumed
by the first match and the second hyphen break survives one pass. -/

def subHyphen : PyStr → PyStr
  | c :: d :: e :: f :: t =>
    if pyIsWord c && d == '-' && e == '\n' && pyIsWord f
    then c :: f :: subHyphen t
    else c :: subHyphen (d :: e :: f :: t)
  | c :: s => c :: subHyphen s
  | [] => []

/-- `true` iff `re.sub(r"(\w)-\n(\w)", …)` would find a match anywhere. -/
def hasHyphenMatch : PyStr → Bool
  | c :: d :: e :: f :: t =>
    if pyIsWord c && d == '-' && e == '\n' && pyIsWord f
    then true
    else hasHyphenMatch (d :: e :: f :: t)
  | _ :: _ => false
  | [] => false

/-! ### `clean_text` step 4:
`re.sub(r"^\s*\d{1,4}\s*$", "", text, flags=re.MULTILINE)`

`\s` also matches newlines, so a match can swallow whitespace-only lines
before the digits.  The matcher below reproduces the engine's greedy
backtracking: longest leading `\s*`, then longest `\d{1,4}` (at most 4),
then longest trailing `\s*`, first combination whose end sits at an
end-of-line (`$` in MULTILINE: before `'\n'` or at the end). -/

def wsRunLen (s : PyStr) : Nat := (s.takeWhile pyIsSpace).length

def digRunLen (s : PyStr) : Nat := (s.takeWhile pyIsDigit).length

def atEol : PyStr → Bool
  | [] => true
  | c :: _ => c == '\n'

/-- `[n, n-1, …, 0]`. -/
def descList (n : Nat) : List Nat := (List.range (n + 1)).reverse

/-- `[d, d-1, …, 1]`. -/
def descList1 (d : Nat) : List Nat := (List.range' 1 d).reverse

/-- Attempt the anchored match `^\s*\d{1,4}\s*$` at the start of `s`
(which must be a line start); returns the match length. -/
def matchPageNum (s : PyStr) : Option Nat :=
  (descList (wsRunLen s)).findSome? fun l1 =>
    let s1 := s.drop l1
    let d := min (digRunLen s1) 4
    (descList1 d).findSome? fun l2 =>
      let s2 := s1.drop l2
      (descList (wsRunLen s2)).findSome? fun l3 =>
        if atEol (s2.drop l3) then some (l1 + l2 + l3) else none

/-- The `re.sub` scanner for step 4.  `skip` counts match characters still
to be consumed; `atLS : Bool` says whether the current position is a line
start (`re.MULTILINE` `^`). -/
def subPN : PyStr → Nat → Bool → PyStr
  | [], _, _ => []
  | c :: t, skip + 1, _ => subPN t skip (c == '\n')
  | c :: t, 0, atLS =>
    if atLS then
      match matchPageNum (c :: t) with
      | some n => subPN t (n - 1) (c == '\n')
      | none => c :: subPN t 0 (c == '\n')
    else c :: subPN t 0 (c == '\n')

def pySubPageNum (s : PyStr) : PyStr := subPN s 0 true

/-- `true` iff step 4 would find a match anywhere (scanning as `re.sub`
does from every line start, without removing anything). -/
def hasPageNumMatch : PyStr → Bool → Bool
  | [], _ => false
  | c :: t, atLS =>
    if atLS && (matchPageNum (c :: t)).isSome then true
    else hasPageNumMatch t (c == '\n')

/-! ### `clean_text` step 5: `re.sub(r"\n{3,}", "\n\n", text)` -/

/-- The greedy pattern replaces each maximal run of 3+ newlines with two.
With `skipping = true` the scanner is inside such a run, dropping the
remaining newlines of the run. -/
def collapseNlAux : PyStr → Bool → PyStr
  | [], _ => []
  | c :: t, skipping =>
    if c = '\n' then
      if skipping then collapseNlAux t true
      else if 2 ≤ (t.takeWhile (fun d => d == '\n')).length
      then '\n' :: '\n' :: collapseNlAux t true
      else '\n' :: collapseNlAux t false
    else c :: collapseNlAux t false

def collapseNl (s : PyStr) : PyStr := collapseNlAux s false

/-- `true` iff the text contains three consecutive newlines. -/
def hasTripleNl : PyStr → Bool
  | '\n' :: '\n' :: '\n' :: _ => true
  | _ :: t => hasTripleNl t
  | [] => false

/-! ### `clean_text` step 6: drop short all-caps lines -/

/-- The source's header/footer test:
`stripped and stripped.isupper() and len(stripped) < 60 and len(stripped.split()) <= 6`. -/
def capsShort (line : PyStr) : Bool :=
  let t := pyStrip line
  !t.isEmpty && pyIsUpperStr t && t.length < 60 && (pyWords t).length ≤ 6

def dropCapsLines (s : PyStr) : PyStr :=
  pyJoinNl ((pySplitNl s).filter (fun l => !capsShort l))

def hasCapsLine (s : PyStr) : Bool := (pySplitNl s).any capsShort

/-! ### `clean_text` step 7: `re.sub(r"[ \t]{2,}", " ", text)`, then trim
each line, then trim the whole text. -/

def isST (c : Char) : Bool := c == ' ' || c == '\t'

/-- Each maximal run of 2+ spaces/tabs becomes one space; `skipping`
marks being inside such a run. -/
def collapseSTAux : PyStr → Bool → PyStr
  | [], _ => []
  | c :: t, skipping =>
    if isST c then
      if skipping then collapseSTAux t true
      else if 1 ≤ (t.takeWhile isST).length
      then ' ' :: collapseSTAux t true
      else c :: collapseSTAux t false
    else c :: collapseSTAux t false

def collapseST (s : PyStr) : PyStr := collapseSTAux s false

def trimLines (s : PyStr) : PyStr := pyJoinNl ((pySplitNl s).map pyStrip)

/-! ### `clean_text` itself (`ingestPDFs.py:78-103`) -/

def clean_text (raw : PyStr) : PyStr :=
  let t1 := replCR (replCRLF raw)
  let t2 := replFF t1
  let t3 := subHyphen t2
  let t4 := pySubPageNum t3
  let t5 := collapseNl t4
  let t6 := dropCapsLines t5
  let t7 := collapseST t6
  pyStrip (trimLines t7)

/-! ### `extract_heading` (`ingestPDFs.py:106-114`) -/

/-- The loop body of `extract_heading`: an outer size/shape test and an
inner noise test; a line failing either test is skipped (`continue`),
not returned. -/
def headingLoop : List PyStr → Option PyStr
  | [] => none
  | line :: ls =>
    let t := pyStrip line
    if (3 ≤ t.length && t.length ≤ 80) && !(t.getLast? == some '.')
        && (t.headD ' ').isUpper then
      if 2 ≤ (pyWords t).length || ((pyWords t).length == 1 && 5 < t.length)
      then some t
      else headingLoop ls
    else headingLoop ls

def extract_heading (text : PyStr) : Option PyStr :=
  headingLoop ((pySplitNl text).take 6)

/-! ### `split_into_chunks` (`ingestPDFs.py:117-142`) -/

def CHUNK_TARGET_CHARS : Nat := 2400
def CHUNK_OVERLAP_CHARS : Nat := 320
def MIN_CHUNK_CHARS : Nat := 200
def EMBED_BATCH_SIZE : Nat := 20

def consHead (c : Char) : List PyStr → List PyStr
  | [] => [[c]]
  | h :: hs => (c :: h) :: hs

/-- `re.split(r"\n\n+", text)`: pieces between maximal runs of two or
more newlines (a single newline stays inside its piece).  `skipping`
marks being inside a separator run. -/
def paraSplitAux : PyStr → Bool → List PyStr
  | [], _ => [[]]
  | c :: t, skipping =>
    if c = '\n' then
      if skipping then paraSplitAux t true
      else if 1 ≤ (t.takeWhile (fun d => d == '\n')).length
      then [] :: paraSplitAux t true
      else consHead '\n' (paraSplitAux t false)
    else consHead c (paraSplitAux t false)

def paraSplit (s : PyStr) : List PyStr := paraSplitAux s false

/-- The overlap seed computed at a split (`ingestPDFs.py:131-134`):
`tail = current[-CHUNK_OVERLAP_CHARS:]; idx = tail.find(" ");
overlap = tail[idx + 1:] if idx >= 0 else tail`. -/
def overlapOf (current : PyStr) : PyStr :=
  let tail := current.drop (current.length - CHUNK_OVERLAP_CHARS)
  match tail.findIdx? (fun c => c == ' ') with
  | some i => tail.drop (i + 1)
  | none => tail

structure ChState where
  chunks : List PyStr
  current : PyStr

/-- One iteration of the paragraph loop of `split_into_chunks`. -/
def chunkStep (st : ChState) (para0 : PyStr) : ChState :=
  let para := pyStrip para0
  if para.isEmpty then st
  else
    let candidate :=
      if !st.current.isEmpty
      then pyStrip (st.current ++ pstr "\n\n" ++ para)
      else para
    if CHUNK_TARGET_CHARS < candidate.length && !st.current.isEmpty then
      { chunks := st.chunks ++ [pyStrip st.current]
        current := pyStrip (overlapOf st.current ++ pstr "\n\n" ++ para) }
    else { st with current := candidate }

/-- The chunk list before the final `len ≥ MIN_CHUNK_CHARS` filter
(`ingestPDFs.py:119-140`). -/
def chunksPre (text : PyStr) : List PyStr :=
  let st := (paraSplit text).foldl chunkStep ⟨[], []⟩
  st.chunks ++
    (if !(pyStrip st.current).isEmpty
        && MIN_CHUNK_CHARS ≤ (pyStrip st.current).length
     then [pyStrip st.current] else [])

def split_into_chunks (text : PyStr) : List PyStr :=
  (chunksPre text).filter (fun c => MIN_CHUNK_CHARS ≤ c.length)

/-! ### `estimate_tokens` and `embed_batch` (`ingestPDFs.py:145-173`) -/

def estimate_tokens (t : PyStr) : Nat := max 1 (t.length / 4)

/-- Stable insertion of a response item into a list sorted by `index`
(Python `sorted` is stable; equal keys keep submission order, though
keys are distinct for a well-formed response). -/
def insIdx {α : Type} (x : Nat × α) : List (Nat × α) → List (Nat × α)
  | [] => [x]
  | y :: ys => if y.1 < x.1 then y :: insIdx x ys else x :: y :: ys

def pySortByIdx {α : Type} (l : List (Nat × α)) : List (Nat × α) :=
  l.foldr insIdx []

/-- The pure tail of `embed_batch` (`ingestPDFs.py:173`): the response
items, each carrying the collaborator's reported `index`, are sorted by
that index and their embeddings returned in that order. -/
def embed_batch_pure {α : Type} (data : List (Nat × α)) : List α :=
  (pySortByIdx data).map Prod.snd

/-! ### The store (`ingestPDFs.py:178-207`)

SQLite through Python's `sqlite3`: `INSERT` statements join the
connection's open transaction and become durable only at
`conn.commit()`; `conn.close()` rolls an uncommitted transaction back.
The code never calls `rollback`, so records inserted before a mid-batch
failure stay pending on the connection.  A `DBConn` is the pair of the
committed store and the pending (uncommitted) inserts; the record's
generated `id` and `createdAt` are irrelevant to the claims and omitted. -/

structure KRec where
  source : String
  chapter : Option PyStr
  content : PyStr
  embedding : List Int
  tokenCount : Nat
deriving DecidableEq, Repr

structure DBConn where
  committed : List KRec
  pending : List KRec
deriving DecidableEq, Repr

def db_connect (store : List KRec) : DBConn := ⟨store, []⟩

/-- `DELETE FROM KnowledgeChunk WHERE source = ?` followed by the
immediate `conn.commit()` in `db_delete_source`. -/
def db_delete_source (conn : DBConn) (source : String) : DBConn :=
  ⟨(conn.committed ++ conn.pending).filter (fun r => !(r.source == source)), []⟩

/-- `INSERT INTO KnowledgeChunk …` (uncommitted until `conn.commit()`). -/
def db_insert_chunk (conn : DBConn) (source : String) (chapter : Option PyStr)
    (content : PyStr) (embedding : List Int) (tokenCount : Nat) : DBConn :=
  { conn with pending := conn.pending ++ [⟨source, chapter, content, embedding, tokenCount⟩] }

def db_commit (conn : DBConn) : DBConn := ⟨conn.committed ++ conn.pending, []⟩

/-- `conn.close()`: pending, uncommitted inserts are rolled back; the
committed store is what persists. -/
def db_close (conn : DBConn) : List KRec := conn.committed

/-- `SELECT COUNT(*) …`, seen through the connection (committed plus
pending). -/
def db_count (conn : DBConn) (source : Option String) : Nat :=
  match source with
  | some s => ((conn.committed ++ conn.pending).filter (fun r => r.source == s)).length
  | none => (conn.committed ++ conn.pending).length

/-! ### The batched enrich-and-persist loop (`ingestPDFs.py:260-287`)

`chunks[batch_idx : batch_idx + EMBED_BATCH_SIZE]` for
`batch_idx in range(0, total, EMBED_BATCH_SIZE)`; batches are numbered
`0, 1, …` here (the oracles are indexed by batch ordinal).
Failures are modelled by oracles: `embedOk b` says whether the
`embed_batch` call for batch `b` succeeds (network error, malformed
response, or HTTP error otherwise); `insertOk b j` says whether the
`db_insert_chunk` call for item `j` of batch `b` succeeds (store error
otherwise).  `vecFor` is the vector the enrichment collaborator computes
for a text. -/

/-- Helper for the batch slicing: `acc` is the batch currently being
filled, reversed; a batch is closed as soon as it reaches
`EMBED_BATCH_SIZE` elements. -/
def toBatchesAux : List PyStr → List PyStr → List (List PyStr)
  | [], acc => if acc.isEmpty then [] else [acc.reverse]
  | c :: t, acc =>
    if EMBED_BATCH_SIZE ≤ acc.length + 1
    then (c :: acc).reverse :: toBatchesAux t []
    else toBatchesAux t (c :: acc)

def toBatches (l : List PyStr) : List (List PyStr) := toBatchesAux l []

/-- The `for j, (content, embedding) in enumerate(zip(batch, embeddings))`
loop inside the `try`; a failing insert raises, aborting the rest of the
batch (the `Bool` result says whether the loop completed). -/
def insertLoop (source : String) (vecFor : PyStr → List Int)
    (insertOk : Nat → Nat → Bool) (b : Nat) :
    List PyStr → Nat → DBConn → Nat → DBConn × Nat × Bool
  | [], _, conn, stored => (conn, stored, true)
  | content :: rest, j, conn, stored =>
    if insertOk b j then
      insertLoop source vecFor insertOk b rest (j + 1)
        (db_insert_chunk conn source (extract_heading content) content
          (vecFor content) (estimate_tokens content))
        (stored + 1)
    else (conn, stored, false)

/-- One batch of the persist loop: the `try`/`except` body.  On success
the batch is committed; on any failure (enrichment or insert) the
`except` branch adds the whole batch to `skipped` and the loop moves on —
without rollback, so a partial batch stays pending. -/
def stepBatch (source : String) (vecFor : PyStr → List Int)
    (embedOk : Nat → Bool) (insertOk : Nat → Nat → Bool)
    (st : DBConn × Nat × Nat) (bi : Nat × List PyStr) : DBConn × Nat × Nat :=
  let conn := st.1
  let stored := st.2.1
  let skipped := st.2.2
  let b := bi.1
  let batch := bi.2
  if embedOk b then
    match insertLoop source vecFor insertOk b batch 0 conn stored with
    | (conn', stored', true) => (db_commit conn', stored', skipped)
    | (conn', stored', false) => (conn', stored', skipped + batch.length)
  else (conn, stored, skipped + batch.length)

def persistLoop (source : String) (vecFor : PyStr → List Int)
    (embedOk : Nat → Bool) (insertOk : Nat → Nat → Bool)
    (chunks : List PyStr) (conn : DBConn) : DBConn × Nat × Nat :=
  ((toBatches chunks).enum).foldl (stepBatch source vecFor embedOk insertOk)
    (conn, 0, 0)

/-- The live (non-preview) store path of `ingest_source`
(`ingestPDFs.py:253-287`): connect, delete existing records for the
source if any, run the batch loop, close. -/
def liveRun (source : String) (vecFor : PyStr → List Int)
    (embedOk : Nat → Bool) (insertOk : Nat → Nat → Bool)
    (chunks : List PyStr) (store : List KRec) : List KRec × Nat × Nat :=
  let conn := db_connect store
  let conn :=
    if 0 < db_count conn (some source) then db_delete_source conn source else conn
  let r := persistLoop source vecFor embedOk insertOk chunks conn
  (db_close r.1, r.2.1, r.2.2)

/-- `ingest_source` (`ingestPDFs.py:212-288`) after text extraction:
clean, chunk, and either preview (dry run: return before `db_connect`,
no store access) or run live.  The returned triple is
(store after the call, stored count, skipped count). -/
def ingest_source_model (source : String) (raw : PyStr) (dryRun : Bool)
    (vecFor : PyStr → List Int) (embedOk : Nat → Bool)
    (insertOk : Nat → Nat → Bool) (store : List KRec) :
    List KRec × Nat × Nat :=
  let cleaned := clean_text raw
  let chunks := split_into_chunks cleaned
  if dryRun then (store, 0, 0)
  else liveRun source vecFor embedOk insertOk chunks store

/-- `main` (`ingestPDFs.py:293-330`): the credential is loaded only in
live mode (`api_key = "" if args.dry_run else load_api_key()`); `env`
models the `OPENAI_API_KEY` value found in `.env`, `none` when absent
(in which case `load_api_key` raises and the run aborts before touching
any source).  Returns the final store, or `none` when the run aborted. -/
def mainModel (dryRun : Bool) (sources : List (String × PyStr))
    (env : Option String) (vecFor : PyStr → List Int)
    (embedOk : Nat → Bool) (insertOk : Nat → Nat → Bool)
    (store : List KRec) : Option (List KRec) :=
  let apiKey := if dryRun then some "" else env
  match apiKey with
  | none => none
  | some _ =>
    some (sources.foldl
      (fun st sr => (ingest_source_model sr.1 sr.2 dryRun vecFor embedOk insertOk st).1)
      store)

/-! ### Spec-side definitions (formalising the specification's wording,
for comparison with the code-derived functions above) -/

/-- The heading rule as the specification words it: length between 3 and
80, no trailing period, uppercase first character, and ≥ 2 words or a
single word longer than 5 characters. -/
def headingOk (t : PyStr) : Bool :=
  (3 ≤ t.length && t.length ≤ 80) && !(t.getLast? == some '.')
    && (t.headD ' ').isUpper
    && (2 ≤ (pyWords t).length ||
        (match pyWords t with | [w] => 5 < w.length | _ => false))

/-- The claim's overlap property for two adjacent chunks: some non-empty
suffix of `a` that does not start mid-word (it starts at the very start
of `a` or right after a whitespace character) is a prefix of `b`. -/
def hasWordAlignedOverlap (a b : PyStr) : Bool :=
  (List.range (a.length + 1)).any fun k =>
    !(a.drop k).isEmpty && (k == 0 || pyIsSpace (a.getD (k - 1) 'x'))
      && (a.drop k).isPrefixOf b

/-- The overlap relation the chunker actually establishes between a
closed chunk `a` and its successor `b`: whenever the left-trimmed
overlap seed derived from `a` is non-empty, it is a prefix of `b`. -/
def chunkRel (a b : PyStr) : Prop :=
  pyLStrip (overlapOf a) ≠ [] → (pyLStrip (overlapOf a)).isPrefixOf b

/-- Invariant of the paragraph loop of `split_into_chunks`: the buffer
is empty or trimmed (first and last characters not whitespace), the
chunks closed so far are chained by `chunkRel`, a non-empty chunk list
implies a non-empty buffer, and the overlap seed of the last closed
chunk is a prefix of the buffer. -/
def chunkInv (st : ChState) : Prop :=
  (st.current = [] ∨
    (pyIsSpace (st.current.headD ' ') = false
      ∧ pyIsSpace (st.current.getLastD ' ') = false))
  ∧ List.Chain' chunkRel st.chunks
  ∧ (st.chunks = [] ∨ st.current ≠ [])
  ∧ ∀ a, st.chunks.getLast? = some a → chunkRel a st.current

/-- Two adjacent space-or-tab characters somewhere in the string: the
pattern `[ \t]{2,}` of `clean_text` step 7 has a match. -/
def hasDoubleST : PyStr → Bool
  | c :: d :: t => (isST c && isST d) || hasDoubleST (d :: t)
  | _ => false

/-- A batch succeeds end-to-end: its `embed_batch` call and every one of
its `db_insert_chunk` calls succeed. -/
def batchAllOk (embedOk : Nat → Bool) (insertOk : Nat → Nat → Bool)
    (b : Nat) (batch : List PyStr) : Prop :=
  embedOk b = true ∧ ∀ j < batch.length, insertOk b j = true

/-- The record `ingest_source` writes for a chunk (`ingestPDFs.py:272-275`). -/
def mkRec (source : String) (vecFor : PyStr → List Int) (content : PyStr) : KRec :=
  ⟨source, extract_heading content, content, vecFor content, estimate_tokens content⟩

/-- The concrete input of the normalization scenario. -/
def c9Input : PyStr :=
  pstr "Page 1\n\nHello world.\n\nTHIS IS A HEADER\n\nMore body text that continues on and on..."

/-- 21 one-character chunks: two batches (20 + 1). -/
def c1Chunks : List PyStr := (List.range 21).map (fun i => [Char.ofNat (65 + i)])

/-- Insert oracle that fails exactly at item 1 of batch 0 (a store
error on the second insert of the first batch). -/
def c1InsertOk : Nat → Nat → Bool := fun b j => !(b == 0 && j == 1)

def c1Run : List KRec × Nat × Nat :=
  liveRun "SRC" (fun _ => [0]) (fun _ => true) c1InsertOk c1Chunks []

/-- The overlap counterexample text: a 400-character single "word"
paragraph followed by a 2100-character paragraph. -/
def c3Text : PyStr :=
  List.replicate 400 'x' ++ pstr "\n\n" ++ List.replicate 2100 'y'

def c3A : PyStr := List.replicate 400 'x'

def c3B : PyStr := List.replicate 320 'x' ++ pstr "\n\n" ++ List.replicate 2100 'y'

/-! ## Theorems -/

theorem length_dropWhile_le {α : Type} (p : α → Bool) :
    ∀ l : List α, (l.dropWhile p).length ≤ l.length
  | [] => by simp [List.dropWhile]
  | a :: t => by
    simp only [List.dropWhile]
    cases h : p a
    · simp
    · exact Nat.le_succ_of_le (length_dropWhile_le p t)


/-- **C6.**  Every chunk returned by `split_into_chunks` has length at
least `MIN_CHUNK_CHARS` (= 200): the function ends with
`[c for c in chunks if len(c) >= MIN_CHUNK_CHARS]`, so no shorter chunk
is ever emitted, even when an oversized paragraph pushes a chunk past
the target size. -/
theorem chunk_min_length (text : PyStr) (c : PyStr)
    (h : c ∈ split_into_chunks text) : MIN_CHUNK_CHARS ≤ c.length := by
  have := (List.mem_filter.mp h).2
  exact of_decide_eq_true this

theorem chunk_min_length_witness :
    (List.replicate 200 'a' : PyStr) ∈ split_into_chunks (List.replicate 200 'a')
      ∧ MIN_CHUNK_CHARS ≤ (List.replicate 200 'a' : PyStr).length :=
  ⟨by decide, chunk_min_length (List.replicate 200 'a') (List.replicate 200 'a') (by decide)⟩

/-- **C8.**  In preview (dry-run) mode `ingest_source` returns before
`db_connect`: the store is untouched for every source, input and prior
store state; and `main` substitutes `""` for the credential
(`api_key = "" if args.dry_run else load_api_key()`), so a full preview
run succeeds with no credential (`env = none`) and leaves the store
exactly as it was, no matter how often it is repeated. -/
theorem preview_no_store_mutation (vecFor : PyStr → List Int)
    (embedOk : Nat → Bool) (insertOk : Nat → Nat → Bool) (store : List KRec) :
    (∀ (source : String) (raw : PyStr),
      (ingest_source_model source raw true vecFor embedOk insertOk store).1 = store)
    ∧ ∀ (sources : List (String × PyStr)) (env : Option String),
        mainModel true sources env vecFor embedOk insertOk store = some store := by
  constructor
  · intro source raw
    simp [ingest_source_model]
  · intro sources env
    have hfold : ∀ (l : List (String × PyStr)) (st : List KRec),
        l.foldl (fun st sr =>
          (ingest_source_model sr.1 sr.2 true vecFor embedOk insertOk st).1) st = st := by
      intro l
      induction l with
      | nil => intro st; rfl
      | cons a t ih =>
        intro st
        simp only [List.foldl_cons]
        rw [show (ingest_source_model a.1 a.2 true vecFor embedOk insertOk st).1 = st by
          simp [ingest_source_model]]
        exact ih st
    simp [mainModel, hfold]

/-- **C9, counterexample.**  On the scenario input, `clean_text` does
*not* yield a single cleaned paragraph run: the first line is
`"Page 1"` — not a bare digit-only line, so the page-number rule does
not fire and the line survives — and removing the all-caps header line
happens after blank-line collapsing, leaving a `\n\n\n` run, so the
result still splits into three paragraph runs, the first of which is
the page marker. -/
theorem clean_scenario_cex :
    (paraSplit (clean_text c9Input)).length = 3
      ∧ (pstr "Page 1").isPrefixOf (clean_text c9Input) = true := by
  decide

/-- **C9, amended.**  Normalizing the scenario input removes the
all-caps header line but keeps `"Page 1"`; the cleaned text is
`"Page 1\n\nHello world.\n\n\nMore body text that continues on and
on..."`, whose paragraph runs are `"Page 1"`, `"Hello world."` and the
body line, and the header line no longer occurs anywhere in it. -/
theorem clean_scenario_amended :
    clean_text c9Input =
      pstr "Page 1\n\nHello world.\n\n\nMore body text that continues on and on..."
    ∧ paraSplit (clean_text c9Input) =
        [pstr "Page 1", pstr "Hello world.",
         pstr "More body text that continues on and on..."]
    ∧ ¬ pstr "THIS IS A HEADER" <:+: clean_text c9Input := by
  decide

/-- **C2, counterexample.**  `clean_text` is not idempotent:
`re.sub(r"(\w)-\n(\w)", …)` consumes the character after the hyphen
break, so in `"a-\nb-\nc"` the first pass only rejoins the first break
(giving `"ab-\nc"`) and a second pass rejoins the second one
(giving `"abc"`). -/
theorem clean_text_not_idempotent_cex :
    clean_text (clean_text (pstr "a-\nb-\nc")) ≠ clean_text (pstr "a-\nb-\nc") := by
  decide

/-- **C1, counterexample.**  Batch persistence is *not* all-or-nothing.
With 21 chunks (batches of 20 and 1) and a store error at the second
insert of batch 0: batch 0 is recorded as fully skipped (skipped = 20),
yet its first chunk `"A"` was already inserted, is never rolled back,
and is committed together with batch 1 by that batch's `conn.commit()`.
The final store holds a record from the failed batch — its contribution
is not empty. -/
theorem batch_not_atomic_cex :
    c1Run.2.2 = 20
      ∧ ['A'] ∈ (toBatches c1Chunks).headD []
      ∧ c1Run.1.map KRec.content = [['A'], ['U']] := by
  decide

/-- Whether `insertLoop` runs to completion: every item of the batch
from offset `j0` on has a successful insert. -/
theorem insertLoop_committed_unchanged (source : String)
    (vecFor : PyStr → List Int) (insertOk : Nat → Nat → Bool) (b : Nat) :
    ∀ (batch : List PyStr) (j0 : Nat) (conn : DBConn) (stored : Nat),
      (insertLoop source vecFor insertOk b batch j0 conn stored).1.committed
        = conn.committed := by
  intro batch
  induction batch with
  | nil => intro j0 conn stored; rfl
  | cons content rest ih =>
    intro j0 conn stored
    simp only [insertLoop]
    by_cases h : insertOk b j0 = true
    · simp only [h, if_true]
      rw [ih]
      rfl
    · simp [h]

theorem insertLoop_fails_of_bad_insert (source : String)
    (vecFor : PyStr → List Int) (insertOk : Nat → Nat → Bool) (b : Nat) :
    ∀ (batch : List PyStr) (j0 : Nat) (conn : DBConn) (stored : Nat),
      (∃ j, j < batch.length ∧ insertOk b (j0 + j) = false) →
      (insertLoop source vecFor insertOk b batch j0 conn stored).2.2 = false := by
  intro batch
  induction batch with
  | nil =>
    intro j0 conn stored h
    obtain ⟨j, hj, _⟩ := h
    exact absurd hj (by simp)
  | cons content rest ih =>
    intro j0 conn stored h
    simp only [insertLoop]
    by_cases hc : insertOk b j0 = true
    · simp only [hc, if_true]
      apply ih
      obtain ⟨j, hj, hbad⟩ := h
      cases j with
      | zero => rw [Nat.add_zero] at hbad; rw [hbad] at hc; cases hc
      | succ j' =>
        refine ⟨j', ?_, ?_⟩
        · simpa [Nat.succ_lt_succ_iff] using hj
        · have : j0 + 1 + j' = j0 + (j' + 1) := by omega
          rw [this]; exact hbad
    · simp [hc]

/-- **C1, amended.**  A batch that fails — whether its `embed_batch`
call errors or one of its inserts errors — never itself commits
anything: the committed store after its `stepBatch` is exactly the
committed store before it, and all of its chunks are added to
`skipped`; the loop then continues with the next batch.  (What the
original claim misses, witnessed by `batch_not_atomic_cex`: inserts
made before a mid-batch store error stay *pending* on the connection
and are committed by the next successful batch's `conn.commit()`, or
discarded at `conn.close()`.) -/
theorem failed_batch_commits_nothing (source : String)
    (vecFor : PyStr → List Int) (embedOk : Nat → Bool)
    (insertOk : Nat → Nat → Bool) (st : DBConn × Nat × Nat)
    (b : Nat) (batch : List PyStr)
    (h : ¬ batchAllOk embedOk insertOk b batch) :
    (stepBatch source vecFor embedOk insertOk st (b, batch)).1.committed
        = st.1.committed
      ∧ (stepBatch source vecFor embedOk insertOk st (b, batch)).2.2
        = st.2.2 + batch.length := by
  unfold stepBatch
  by_cases he : embedOk b = true
  · have hbad : ∃ j, j < batch.length ∧ insertOk b (0 + j) = false := by
      by_contra hall
      push_neg at hall
      exact h ⟨he, fun j hj => by
        have := hall j hj
        simpa using eq_true_of_ne_false this⟩
    have hfail := insertLoop_fails_of_bad_insert source vecFor insertOk b
      batch 0 st.1 st.2.1 hbad
    have hcom := insertLoop_committed_unchanged source vecFor insertOk b
      batch 0 st.1 st.2.1
    simp only [he, if_true]
    rcases hres : insertLoop source vecFor insertOk b batch 0 st.1 st.2.1
      with ⟨conn', stored', ok⟩
    rw [hres] at hfail hcom
    simp only at hfail hcom
    subst hfail
    simp [hcom]
  · simp [he]

theorem failed_batch_commits_nothing_witness :
    ¬ batchAllOk (fun _ => false) (fun _ _ => true) 0 [['a']]
      ∧ ((stepBatch "S" (fun _ => [0]) (fun _ => false) (fun _ _ => true)
            (⟨[], []⟩, 0, 0) (0, [['a']])).1.committed = ([] : List KRec)
          ∧ (stepBatch "S" (fun _ => [0]) (fun _ => false) (fun _ _ => true)
              (⟨[], []⟩, 0, 0) (0, [['a']])).2.2 = 0 + 1) :=
  ⟨fun hc => by simpa using hc.1,
   failed_batch_commits_nothing "S" (fun _ => [0]) (fun _ => false)
     (fun _ _ => true) (⟨[], []⟩, 0, 0) 0 [['a']]
     (fun hc => by simpa using hc.1)⟩

theorem insIdx_perm {α : Type} (x : Nat × α) :
    ∀ l : List (Nat × α), (insIdx x l).Perm (x :: l) := by
  intro l
  induction l with
  | nil => simp [insIdx]
  | cons y ys ih =>
    simp only [insIdx]
    by_cases h : y.1 < x.1
    · simp only [h, if_true]
      exact (ih.cons y).trans (List.Perm.swap x y ys)
    · simp [h]

theorem pySortByIdx_perm {α : Type} :
    ∀ l : List (Nat × α), (pySortByIdx l).Perm l := by
  intro l
  induction l with
  | nil => simp [pySortByIdx]
  | cons x xs ih =>
    simp only [pySortByIdx, List.foldr_cons]
    exact (insIdx_perm x _).trans (ih.cons x)

theorem mem_insIdx {α : Type} {x z : Nat × α} {l : List (Nat × α)}
    (h : z ∈ insIdx x l) : z = x ∨ z ∈ l := by
  have := (insIdx_perm x l).mem_iff.mp h
  simpa using this

theorem insIdx_sorted {α : Type} (x : Nat × α) :
    ∀ l : List (Nat × α),
      l.Pairwise (fun a b => a.1 ≤ b.1) →
      (insIdx x l).Pairwise (fun a b => a.1 ≤ b.1) := by
  intro l
  induction l with
  | nil => intro _; simp [insIdx]
  | cons y ys ih =>
    intro hp
    rw [List.pairwise_cons] at hp
    simp only [insIdx]
    by_cases h : y.1 < x.1
    · simp only [h, if_true]
      rw [List.pairwise_cons]
      refine ⟨?_, ih hp.2⟩
      intro z hz
      rcases mem_insIdx hz with rfl | hz'
      · exact Nat.le_of_lt h
      · exact hp.1 z hz'
    · simp only [h, if_false]
      rw [List.pairwise_cons]
      refine ⟨?_, List.pairwise_cons.mpr hp⟩
      intro z hz
      rcases List.mem_cons.mp hz with rfl | hz'
      · exact Nat.le_of_not_lt h
      · exact Nat.le_trans (Nat.le_of_not_lt h) (hp.1 z hz')

theorem pySortByIdx_sorted {α : Type} :
    ∀ l : List (Nat × α),
      (pySortByIdx l).Pairwise (fun a b => a.1 ≤ b.1) := by
  intro l
  induction l with
  | nil => simp [pySortByIdx]
  | cons x xs ih =>
    simp only [pySortByIdx, List.foldr_cons]
    exact insIdx_sorted x _ ih

/-- Two lists of index-keyed items that are permutations of each other,
both sorted by key, with duplicate-free keys, are equal. -/
theorem eq_of_perm_sorted_nodup_keys {α : Type} :
    ∀ (l₁ l₂ : List (Nat × α)), l₁.Perm l₂ →
      l₁.Pairwise (fun a b => a.1 ≤ b.1) →
      l₂.Pairwise (fun a b => a.1 ≤ b.1) →
      (l₂.map Prod.fst).Nodup → l₁ = l₂ := by
  intro l₁
  induction l₁ with
  | nil => intro l₂ hp _ _ _; exact (hp.nil_eq).symm ▸ rfl
  | cons a t₁ ih =>
    intro l₂ hp h₁ h₂ hnd
    cases l₂ with
    | nil => exact absurd hp.symm.nil_eq (by simp)
    | cons b t₂ =>
      rw [List.pairwise_cons] at h₁ h₂
      have hab : a = b := by
        have ha : a ∈ b :: t₂ := hp.mem_iff.mp (by simp)
        have hb : b ∈ a :: t₁ := hp.symm.mem_iff.mp (by simp)
        rcases List.mem_cons.mp ha with h | ha'
        · exact h
        rcases List.mem_cons.mp hb with h | hb'
        · exact h.symm
        have hkey : a.1 = b.1 :=
          Nat.le_antisymm (h₁.1 b hb') (h₂.1 a ha')
        exfalso
        rw [List.map_cons, List.nodup_cons] at hnd
        exact hnd.1 (hkey ▸ List.mem_map_of_mem Prod.fst ha')
      subst hab
      have ht : t₁.Perm t₂ := hp.cons_inv
      rw [ih t₂ ht h₁.2 h₂.2 (by
        rw [List.map_cons, List.nodup_cons] at hnd
        exact hnd.2)]

theorem enumFrom_pairwise_le {α : Type} :
    ∀ (l : List α) (n : Nat),
      (l.enumFrom n).Pairwise (fun a b => (a : Nat × α).1 ≤ b.1) := by
  intro l
  induction l with
  | nil => intro n; simp
  | cons x xs ih =>
    intro n
    rw [List.enumFrom_cons, List.pairwise_cons]
    refine ⟨?_, ih (n + 1)⟩
    intro p hp
    exact Nat.le_trans (Nat.le_succ n) (List.le_fst_of_mem_enumFrom hp)

theorem enumFrom_keys_nodup {α : Type} :
    ∀ (l : List α) (n : Nat), ((l.enumFrom n).map Prod.fst).Nodup := by
  intro l
  induction l with
  | nil => intro n; simp
  | cons x xs ih =>
    intro n
    rw [List.enumFrom_cons, List.map_cons, List.nodup_cons]
    refine ⟨?_, ih (n + 1)⟩
    intro hmem
    rcases List.mem_map.mp hmem with ⟨p, hp, hfst⟩
    have := List.le_fst_of_mem_enumFrom hp
    omega

/-- **C4.**  Order preservation of `embed_batch`: if the response items
are any permutation of the pairs (original request index, vector
computed for the text at that index) — `(texts.map vec).enum` — then
sorting by the reported index recovers exactly the vector list in
submission order, and zipping the submitted chunks against it (as the
ingestion loop does) pairs every chunk with its own vector. -/
theorem embed_batch_order {α : Type} (texts : List PyStr)
    (vec : PyStr → α) (resp : List (Nat × α))
    (hperm : resp.Perm ((texts.map vec).enum)) :
    embed_batch_pure resp = texts.map vec
      ∧ texts.zip (embed_batch_pure resp)
          = texts.map (fun t => (t, vec t)) := by
  have hsortEq : pySortByIdx resp = (texts.map vec).enum := by
    apply eq_of_perm_sorted_nodup_keys
    · exact (pySortByIdx_perm resp).trans hperm
    · exact pySortByIdx_sorted resp
    · exact enumFrom_pairwise_le (texts.map vec) 0
    · exact enumFrom_keys_nodup (texts.map vec) 0
  have h1 : embed_batch_pure resp = texts.map vec := by
    rw [embed_batch_pure, hsortEq, List.enum_map_snd]
  refine ⟨h1, ?_⟩
  rw [h1, ← List.map_prod_left_eq_zip]

theorem embed_batch_order_witness :
    ([(2, 3), (0, 1), (1, 2)] : List (Nat × Nat)).Perm
        (([pstr "a", pstr "bb", pstr "ccc"].map List.length).enum)
      ∧ (embed_batch_pure [(2, 3), (0, 1), (1, 2)]
          = [pstr "a", pstr "bb", pstr "ccc"].map List.length
        ∧ [pstr "a", pstr "bb", pstr "ccc"].zip
            (embed_batch_pure [(2, 3), (0, 1), (1, 2)])
          = [pstr "a", pstr "bb", pstr "ccc"].map
              (fun t => (t, t.length))) :=
  ⟨by decide,
   embed_batch_order [pstr "a", pstr "bb", pstr "ccc"] List.length
     [(2, 3), (0, 1), (1, 2)] (by decide)⟩

theorem insertLoop_allOk (source : String) (vecFor : PyStr → List Int) (b : Nat) :
    ∀ (batch : List PyStr) (j0 : Nat) (conn : DBConn) (stored : Nat),
      insertLoop source vecFor (fun _ _ => true) b batch j0 conn stored
        = (⟨conn.committed, conn.pending ++ batch.map (mkRec source vecFor)⟩,
           stored + batch.length, true) := by
  intro batch
  induction batch with
  | nil => intro j0 conn stored; simp [insertLoop]
  | cons content rest ih =>
    intro j0 conn stored
    simp only [insertLoop, if_true]
    rw [ih]
    simp [db_insert_chunk, mkRec, List.append_assoc]
    omega

theorem persistLoop_allOk (source : String) (vecFor : PyStr → List Int) :
    ∀ (bs : List (Nat × List PyStr)) (conn : DBConn) (stored skipped : Nat),
      conn.pending = [] →
      bs.foldl (stepBatch source vecFor (fun _ => true) (fun _ _ => true))
          (conn, stored, skipped)
        = (⟨conn.committed ++ ((bs.map Prod.snd).flatten).map (mkRec source vecFor), []⟩,
           stored + ((bs.map Prod.snd).flatten).length, skipped) := by
  intro bs
  induction bs with
  | nil =>
    intro conn stored skipped hp
    cases conn
    simp_all
  | cons hd bs ih =>
    intro conn stored skipped hp
    simp only [List.foldl_cons]
    have hstep : stepBatch source vecFor (fun _ => true) (fun _ _ => true)
        (conn, stored, skipped) hd
        = (⟨conn.committed ++ hd.2.map (mkRec source vecFor), []⟩,
           stored + hd.2.length, skipped) := by
      simp only [stepBatch, if_true]
      rw [insertLoop_allOk]
      simp [db_commit, hp]
    rw [hstep, ih _ _ _ rfl]
    simp [List.append_assoc]
    omega

theorem toBatchesAux_flatten :
    ∀ (l : List PyStr) (acc : List PyStr),
      (toBatchesAux l acc).flatten = acc.reverse ++ l := by
  intro l
  induction l with
  | nil =>
    intro acc
    by_cases h : acc.isEmpty
    · simp only [toBatchesAux, h]
      simp_all [List.isEmpty_iff]
    · simp [toBatchesAux, h]
  | cons c t ih =>
    intro acc
    simp only [toBatchesAux]
    by_cases h : EMBED_BATCH_SIZE ≤ acc.length + 1
    · simp only [h, if_true, List.flatten_cons, ih]
      simp
    · simp only [h, if_false, ih]
      simp

theorem toBatches_flatten (l : List PyStr) : (toBatches l).flatten = l := by
  rw [toBatches, toBatchesAux_flatten]; rfl

/-- Whether or not the `existing > 0` guard fires, the connection the
batch loop starts from holds exactly the records of the other sources:
when the count is 0, the filter removes nothing. -/
theorem liveRun_normalized (source : String) (vecFor : PyStr → List Int)
    (embedOk : Nat → Bool) (insertOk : Nat → Nat → Bool)
    (chunks : List PyStr) (store : List KRec) :
    liveRun source vecFor embedOk insertOk chunks store
      = ((persistLoop source vecFor embedOk insertOk chunks
            ⟨store.filter (fun r => !(r.source == source)), []⟩).1.committed,
         (persistLoop source vecFor embedOk insertOk chunks
            ⟨store.filter (fun r => !(r.source == source)), []⟩).2.1,
         (persistLoop source vecFor embedOk insertOk chunks
            ⟨store.filter (fun r => !(r.source == source)), []⟩).2.2) := by
  unfold liveRun
  by_cases h : 0 < db_count (db_connect store) (some source)
  · simp only [h, if_true]
    have : db_delete_source (db_connect store) source
        = ⟨store.filter (fun r => !(r.source == source)), []⟩ := by
      simp [db_delete_source, db_connect]
    rw [this]
    rfl
  · simp only [h, if_false]
    have hnil : store.filter (fun r => r.source == source) = [] := by
      have : (store.filter (fun r => r.source == source)).length = 0 := by
        simp only [db_count, db_connect, List.append_nil] at h
        omega
      exact List.length_eq_zero.mp this
    have hall : ∀ r ∈ store, (!(r.source == source)) = true := by
      intro r hr
      have h2 := List.filter_eq_nil_iff.mp hnil r hr
      cases hbe : (r.source == source) with
      | true => exact absurd hbe h2
      | false => simp [hbe]
    have : store.filter (fun r => !(r.source == source)) = store :=
      List.filter_eq_self.mpr hall
    rw [this]
    rfl

/-- **C5.**  A fully successful live run (every enrichment and insert
succeeds) replaces the source's records wholesale: existing records for
the source are deleted before anything is written, so the final store
is the other sources' records plus exactly one fresh record per chunk,
in order; the per-source record count equals the chunk count (42 chunks
leave exactly 42 records no matter how many — e.g. 50 — were there
before); `stored` is the chunk count and `skipped` is 0; and running the
identical live ingestion a second time reproduces the identical result
(idempotence per source). -/
theorem live_run_replaces_source (source : String) (vecFor : PyStr → List Int)
    (chunks : List PyStr) (store : List KRec) :
    (liveRun source vecFor (fun _ => true) (fun _ _ => true) chunks store).1
        = store.filter (fun r => !(r.source == source))
            ++ chunks.map (mkRec source vecFor)
      ∧ (liveRun source vecFor (fun _ => true) (fun _ _ => true) chunks store).2.1
        = chunks.length
      ∧ (liveRun source vecFor (fun _ => true) (fun _ _ => true) chunks store).2.2 = 0
      ∧ (((liveRun source vecFor (fun _ => true) (fun _ _ => true) chunks store).1).filter
            (fun r => r.source == source)).length = chunks.length
      ∧ liveRun source vecFor (fun _ => true) (fun _ _ => true) chunks
            ((liveRun source vecFor (fun _ => true) (fun _ _ => true) chunks store).1)
        = liveRun source vecFor (fun _ => true) (fun _ _ => true) chunks store := by
  have hone : ∀ st : List KRec,
      liveRun source vecFor (fun _ => true) (fun _ _ => true) chunks st
        = (st.filter (fun r => !(r.source == source))
             ++ chunks.map (mkRec source vecFor),
           chunks.length, 0) := by
    intro st
    rw [liveRun_normalized]
    have hp : persistLoop source vecFor (fun _ => true) (fun _ _ => true) chunks
        ⟨st.filter (fun r => !(r.source == source)), []⟩
        = (⟨st.filter (fun r => !(r.source == source))
              ++ chunks.map (mkRec source vecFor), []⟩,
           chunks.length, 0) := by
      rw [persistLoop, persistLoop_allOk source vecFor _ _ 0 0 rfl]
      have hsnd : (((toBatches chunks).enum.map Prod.snd).flatten) = chunks := by
        rw [List.enum_map_snd, toBatches_flatten]
      rw [hsnd]
      simp
    rw [hp]
  have hnewall : ∀ r ∈ chunks.map (mkRec source vecFor),
      (r.source == source) = true := by
    intro r hr
    rcases List.mem_map.mp hr with ⟨c, _, rfl⟩
    simp [mkRec]
  have hothers_none : ∀ r ∈ store.filter (fun r => !(r.source == source)),
      ¬ (r.source == source) = true := by
    intro r hr hcon
    have := (List.mem_filter.mp hr).2
    rw [hcon] at this
    simp at this
  have hA : (store.filter (fun r => !(r.source == source))).filter
        (fun r => !(r.source == source))
      = store.filter (fun r => !(r.source == source)) :=
    List.filter_eq_self.mpr (fun r hr => (List.mem_filter.mp hr).2)
  have hB : (chunks.map (mkRec source vecFor)).filter
        (fun r => !(r.source == source)) = [] :=
    List.filter_eq_nil_iff.mpr (fun r hr => by
      have := hnewall r hr
      simp [this])
  have hsplit : (store.filter (fun r => !(r.source == source))
        ++ chunks.map (mkRec source vecFor)).filter (fun r => !(r.source == source))
      = store.filter (fun r => !(r.source == source)) := by
    rw [List.filter_append, hA, hB, List.append_nil]
  refine ⟨by rw [hone], by rw [hone], by rw [hone], ?_, ?_⟩
  · have hB2 : (chunks.map (mkRec source vecFor)).filter
          (fun r => r.source == source) = chunks.map (mkRec source vecFor) :=
      List.filter_eq_self.mpr hnewall
    have hA2 : (store.filter (fun r => !(r.source == source))).filter
          (fun r => r.source == source) = [] :=
      List.filter_eq_nil_iff.mpr hothers_none
    rw [hone, List.filter_append, hA2, hB2]
    simp
  · rw [hone ((liveRun source vecFor (fun _ => true) (fun _ _ => true) chunks store).1),
        hone store]
    simp [hsplit]

theorem findIdx?_start_map {α : Type} (p : α → Bool) :
    ∀ (l : List α) (i : Nat),
      l.findIdx? p (i + 1) = (l.findIdx? p i).map (· + 1) := by
  intro l
  induction l with
  | nil => intro i; simp [List.findIdx?]
  | cons x xs ih =>
    intro i
    rw [List.findIdx?_cons, List.findIdx?_cons]
    by_cases h : p x = true
    · simp [h]
    · simp only [h, if_false]
      exact ih (i + 1)

theorem any_eq_isSome_findIdx? {α : Type} (p : α → Bool) :
    ∀ (l : List α) (i : Nat), l.any p = (l.findIdx? p i).isSome := by
  intro l
  induction l with
  | nil => intro i; simp [List.findIdx?]
  | cons x xs ih =>
    intro i
    rw [List.findIdx?_cons]
    by_cases h : p x = true
    · simp [h]
    · simp only [h, if_false, List.any_cons, Bool.false_or]
      exact ih (i + 1)

/-- `tail[idx + 1:] if idx >= 0 else tail` for `idx = tail.find(" ")`,
rephrased: when the tail contains the character, everything up to and
including its first occurrence is dropped; otherwise the tail is kept
whole. -/
theorem findIdx_drop_rule (p : Char → Bool) :
    ∀ l : PyStr,
      (match l.findIdx? p with
       | some i => l.drop (i + 1)
       | none => l)
      = if l.any p then (l.dropWhile (fun c => !p c)).drop 1 else l := by
  intro l
  induction l with
  | nil => simp [List.findIdx?]
  | cons x xs ih =>
    rw [List.findIdx?_cons]
    by_cases h : p x = true
    · simp [h, List.dropWhile_cons]
    · have hstep : List.findIdx? p xs (0 + 1) = (List.findIdx? p xs 0).map (· + 1) :=
        findIdx?_start_map p xs 0
      simp only [h, if_false, hstep]
      cases hfi : List.findIdx? p xs 0 with
      | none =>
        have hax : xs.any p = false := by
          rw [any_eq_isSome_findIdx? p xs 0, hfi]; rfl
        have haxx : (x :: xs).any p = false := by simp [h, hax]
        simp [haxx]
      | some i =>
        have hax : xs.any p = true := by
          rw [any_eq_isSome_findIdx? p xs 0, hfi]; rfl
        have haxx : (x :: xs).any p = true := by simp [hax]
        rw [hfi] at ih
        simp only [hax, if_true] at ih
        simp only [Option.map_some', haxx, if_true, List.drop_succ_cons,
          Bool.false_eq_true, if_false]
        rw [ih, List.dropWhile_cons]
        simp [h]

/-- **C10.**  When `split_into_chunks` closes a chunk, the overlap seed
for the next buffer is the last `CHUNK_OVERLAP_CHARS` (320) characters
of the closed buffer, with every character up to and including the
*first* space dropped when that tail contains a space (even if the tail
already starts at a word boundary), and the entire raw tail kept — which
may start mid-word — when the tail contains no space at all; the next
buffer starts as that seed, a blank line, and the new paragraph. -/
theorem overlap_seed_rule (st : ChState) (para0 : PyStr)
    (h1 : (pyStrip para0).isEmpty = false)
    (h2 : st.current.isEmpty = false)
    (h3 : CHUNK_TARGET_CHARS
        < (pyStrip (st.current ++ pstr "\n\n" ++ pyStrip para0)).length) :
    chunkStep st para0
        = ⟨st.chunks ++ [pyStrip st.current],
           pyStrip (overlapOf st.current ++ pstr "\n\n" ++ pyStrip para0)⟩
      ∧ overlapOf st.current
        = (if (st.current.drop (st.current.length - CHUNK_OVERLAP_CHARS)).any
              (fun c => c == ' ')
           then ((st.current.drop (st.current.length - CHUNK_OVERLAP_CHARS)).dropWhile
                  (fun c => !(c == ' '))).drop 1
           else st.current.drop (st.current.length - CHUNK_OVERLAP_CHARS)) := by
  constructor
  · have hd : decide (CHUNK_TARGET_CHARS
        < (pyStrip (st.current ++ pstr "\n\n" ++ pyStrip para0)).length) = true :=
      decide_eq_true h3
    simp only [chunkStep, h1, h2, Bool.false_eq_true, if_false, Bool.not_false,
      if_true, Bool.and_true, hd]
  · exact findIdx_drop_rule (fun c => c == ' ') _

/-! ### Symbolic evaluation toolkit: the chunker's size constants force
inputs of more than 2400 characters, too deep for kernel evaluation, so
concrete chunker runs are computed by rewriting over `List.replicate`. -/

theorem dropWhile_replicate_neg {p : Char → Bool} {c : Char} (h : p c = false) :
    ∀ n : Nat, (List.replicate n c).dropWhile p = List.replicate n c := by
  intro n
  induction n with
  | zero => simp
  | succ n ih => rw [List.replicate_succ, List.dropWhile_cons, h]; simp

theorem pyStrip_replicate {c : Char} (h : pyIsSpace c = false) (n : Nat) :
    pyStrip (List.replicate n c) = List.replicate n c := by
  unfold pyStrip pyLStrip pyRStrip
  rw [dropWhile_replicate_neg h, List.reverse_replicate,
      dropWhile_replicate_neg h, List.reverse_replicate]

theorem pyLStrip_cons_neg {c : Char} (h : pyIsSpace c = false) (t : PyStr) :
    pyLStrip (c :: t) = c :: t := by
  simp [pyLStrip, List.dropWhile_cons, h]

theorem pyRStrip_eq_rdropWhile (s : PyStr) :
    pyRStrip s = List.rdropWhile pyIsSpace s := rfl

theorem getLastD_of_ne_nil {b : PyStr} (hb : b ≠ []) (d₁ d₂ : Char) :
    b.getLastD d₁ = b.getLastD d₂ := by
  cases b with
  | nil => exact absurd rfl hb
  | cons y b' => rw [List.getLastD_cons, List.getLastD_cons]

theorem getLastD_append_right (a : PyStr) :
    ∀ (b : PyStr), b ≠ [] → ∀ d : Char, (a ++ b).getLastD d = b.getLastD d := by
  induction a with
  | nil => intro b _ d; simp
  | cons x a ih =>
    intro b hb d
    rw [List.cons_append, List.getLastD_cons, ih b hb x]
    exact getLastD_of_ne_nil hb x d

theorem getLastD_concat (q : PyStr) (a d : Char) : (q ++ [a]).getLastD d = a := by
  rw [getLastD_append_right q [a] (by simp) d, List.getLastD_cons]
  rfl

/-- A string whose first and last characters are not whitespace (with
non-whitespace defaults for the empty case) is fixed by `pyStrip`. -/
theorem pyStrip_fix {s : PyStr} (h1 : pyIsSpace (s.headD 'x') = false)
    (h2 : pyIsSpace (s.getLastD 'x') = false) : pyStrip s = s := by
  cases s with
  | nil => rfl
  | cons c t =>
    have hh : pyLStrip (c :: t) = c :: t := pyLStrip_cons_neg (by simpa using h1) t
    rw [pyStrip, hh, pyRStrip_eq_rdropWhile]
    rcases List.eq_nil_or_concat (c :: t) with hnil | ⟨q, a, heq⟩
    · simp at hnil
    · rw [List.concat_eq_append] at heq
      rw [heq]
      rw [heq, getLastD_concat] at h2
      exact List.rdropWhile_concat_neg pyIsSpace q a (by simp [h2])

theorem findIdx?_none_of_all {p : Char → Bool} :
    ∀ (l : PyStr) (i : Nat), (∀ x ∈ l, p x = false) → l.findIdx? p i = none := by
  intro l
  induction l with
  | nil => intro i _; simp [List.findIdx?]
  | cons x xs ih =>
    intro i hall
    rw [List.findIdx?_cons]
    rw [hall x (by simp)]
    simp only [Bool.false_eq_true, if_false]
    exact ih (i + 1) (fun y hy => hall y (by simp [hy]))

theorem replicate_as_succ (n : Nat) (c : Char) (h : n ≠ 0) :
    List.replicate n c = c :: List.replicate (n - 1) c := by
  cases n with
  | zero => exact absurd rfl h
  | succ m => rw [List.replicate_succ]; rfl

theorem isEmpty_replicate_succ (n : Nat) (c : Char) (h : n ≠ 0) :
    (List.replicate n c).isEmpty = false := by
  rw [replicate_as_succ n c h]; rfl

theorem overlap_seed_rule_witness :
    ((pyStrip ['y']).isEmpty = false
        ∧ ((⟨[], List.replicate 2401 'x'⟩ : ChState).current).isEmpty = false
        ∧ CHUNK_TARGET_CHARS
          < (pyStrip ((⟨[], List.replicate 2401 'x'⟩ : ChState).current
              ++ pstr "\n\n" ++ pyStrip ['y'])).length)
      ∧ (chunkStep ⟨[], List.replicate 2401 'x'⟩ ['y']
          = ⟨(⟨[], List.replicate 2401 'x'⟩ : ChState).chunks
               ++ [pyStrip (⟨[], List.replicate 2401 'x'⟩ : ChState).current],
             pyStrip (overlapOf (⟨[], List.replicate 2401 'x'⟩ : ChState).current
               ++ pstr "\n\n" ++ pyStrip ['y'])⟩
        ∧ overlapOf ((⟨[], List.replicate 2401 'x'⟩ : ChState).current)
          = (if (((⟨[], List.replicate 2401 'x'⟩ : ChState).current.drop
                  ((⟨[], List.replicate 2401 'x'⟩ : ChState).current.length
                    - CHUNK_OVERLAP_CHARS))).any (fun c => c == ' ')
             then ((((⟨[], List.replicate 2401 'x'⟩ : ChState).current.drop
                     ((⟨[], List.replicate 2401 'x'⟩ : ChState).current.length
                       - CHUNK_OVERLAP_CHARS))).dropWhile
                    (fun c => !(c == ' '))).drop 1
             else ((⟨[], List.replicate 2401 'x'⟩ : ChState).current.drop
                    ((⟨[], List.replicate 2401 'x'⟩ : ChState).current.length
                      - CHUNK_OVERLAP_CHARS)))) := by
  have hy : pyStrip ['y'] = ['y'] := by decide
  have p1 : (pyStrip ['y']).isEmpty = false := by rw [hy]; rfl
  have p2 : ((⟨[], List.replicate 2401 'x'⟩ : ChState).current).isEmpty = false :=
    isEmpty_replicate_succ 2401 'x' (by decide)
  have p3 : CHUNK_TARGET_CHARS
      < (pyStrip ((⟨[], List.replicate 2401 'x'⟩ : ChState).current
          ++ pstr "\n\n" ++ pyStrip ['y'])).length := by
    rw [hy]
    have hfix : pyStrip ((List.replicate 2401 'x' : PyStr) ++ pstr "\n\n" ++ ['y'])
        = (List.replicate 2401 'x' : PyStr) ++ pstr "\n\n" ++ ['y'] := by
      apply pyStrip_fix
      · rw [replicate_as_succ 2401 'x' (by decide)]
        simp only [List.cons_append, List.headD_cons]
        decide
      · rw [List.append_assoc,
            getLastD_append_right _ (pstr "\n\n" ++ ['y']) (by decide) 'x']
        decide
    show CHUNK_TARGET_CHARS
        < (pyStrip ((List.replicate 2401 'x' : PyStr) ++ pstr "\n\n" ++ ['y'])).length
    rw [hfix]
    simp [List.length_append, List.length_replicate, CHUNK_TARGET_CHARS, pstr]
  exact ⟨⟨p1, p2, p3⟩,
    overlap_seed_rule ⟨[], List.replicate 2401 'x'⟩ ['y'] p1 p2 p3⟩


/-! ### The chunk-overlap claim (C3): counterexample machinery -/


theorem consHead_ne_nil (c : Char) (ls : List PyStr) : consHead c ls ≠ [] := by
  cases ls <;> simp [consHead]

theorem paraSplitAux_ne_nil : ∀ (s : PyStr) (b : Bool), paraSplitAux s b ≠ [] := by
  intro s
  induction s with
  | nil => intro b; simp [paraSplitAux]
  | cons c t ih =>
    intro b
    rw [paraSplitAux]
    split
    · split
      · exact ih true
      · split
        · simp
        · exact consHead_ne_nil _ _
    · exact consHead_ne_nil _ _

theorem consHead_eq (c : Char) (ls : List PyStr) (h : ls ≠ []) :
    consHead c ls = (c :: ls.headD []) :: ls.tail := by
  cases ls with
  | nil => exact absurd rfl h
  | cons x xs => simp [consHead]

/-- Prepending `n + 1` copies of a non-newline character prepends them
onto the first paragraph piece. -/
theorem paraSplitAux_rep (c : Char) (hc : ¬ c = '\n') :
    ∀ (n : Nat) (rest : PyStr) (b : Bool),
      paraSplitAux (List.replicate (n + 1) c ++ rest) b
      = (List.replicate (n + 1) c ++ (paraSplitAux rest false).headD [])
          :: (paraSplitAux rest false).tail := by
  intro n
  induction n with
  | zero =>
    intro rest b
    have h1 : List.replicate 1 c ++ rest = c :: rest := by simp
    rw [h1, paraSplitAux]
    simp only [hc, if_false]
    rw [consHead_eq c _ (paraSplitAux_ne_nil rest false)]
    simp
  | succ n ih =>
    intro rest b
    rw [List.replicate_succ, List.cons_append, paraSplitAux]
    simp only [hc, if_false]
    rw [ih rest false]
    rw [consHead_eq c _ (by simp)]
    simp [List.replicate_succ]

theorem paraSplit_c3 :
    paraSplit c3Text = [List.replicate 400 'x', List.replicate 2100 'y'] := by
  have hrun : (List.takeWhile (fun d => d == '\n')
      ('\n' :: List.replicate 2100 'y')).length = 1 := by
    rw [List.takeWhile_cons]
    rw [show (('\n' : Char) == '\n') = true from rfl]
    simp only [if_true]
    rw [show (2100 : Nat) = 2099 + 1 from rfl, List.replicate_succ, List.takeWhile_cons]
    rw [show (('y' : Char) == '\n') = false from rfl]
    simp [-List.reduceReplicate]
  have haux2 : paraSplitAux (List.replicate 2100 'y') true = [List.replicate 2100 'y'] := by
    rw [show (2100 : Nat) = 2099 + 1 from rfl]
    rw [show List.replicate (2099 + 1) 'y' = List.replicate (2099 + 1) 'y' ++ []
        from (List.append_nil _).symm]
    rw [paraSplitAux_rep 'y' (by decide) 2099 [] true]
    simp [paraSplitAux, -List.reduceReplicate]
  have haux1 : paraSplitAux ('\n' :: List.replicate 2100 'y') true
      = [List.replicate 2100 'y'] := by
    rw [paraSplitAux, if_pos rfl, if_pos rfl]
    exact haux2
  have hinner : paraSplitAux ('\n' :: '\n' :: List.replicate 2100 'y') false
      = [[], List.replicate 2100 'y'] := by
    rw [paraSplitAux, if_pos rfl]
    rw [if_neg (by simp)]
    rw [if_pos (by rw [hrun])]
    rw [haux1]
  rw [paraSplit, c3Text, List.append_assoc]
  rw [show pstr "\n\n" ++ List.replicate 2100 'y'
      = '\n' :: '\n' :: List.replicate 2100 'y' from rfl]
  rw [show (400 : Nat) = 399 + 1 from rfl,
      paraSplitAux_rep 'x' (by decide) 399 _ false]
  rw [hinner]
  simp [-List.reduceReplicate]

theorem getLastD_replicate (n : Nat) (c d : Char) (h : n ≠ 0) :
    (List.replicate n c).getLastD d = c := by
  obtain ⟨m, rfl⟩ : ∃ m, n = m + 1 := ⟨n - 1, by omega⟩
  rw [List.replicate_succ']
  exact getLastD_concat _ _ _

theorem pyStrip_xy_glue (m n : Nat) (hm : m ≠ 0) (hn : n ≠ 0) :
    pyStrip (List.replicate m 'x' ++ pstr "\n\n" ++ List.replicate n 'y')
      = List.replicate m 'x' ++ pstr "\n\n" ++ List.replicate n 'y' := by
  apply pyStrip_fix
  · rw [replicate_as_succ m 'x' hm]
    simp only [List.cons_append, List.headD_cons]
    decide
  · have hne2 : pstr "\n\n" ++ List.replicate n 'y' ≠ [] := by
      simp [pstr]
    rw [List.append_assoc, getLastD_append_right _ _ hne2 'x',
        getLastD_append_right _ _ (by rw [replicate_as_succ n 'y' hn]; simp) 'x',
        getLastD_replicate n 'y' 'x' hn]
    decide

theorem overlapOf_rep400 : overlapOf (List.replicate 400 'x') = List.replicate 320 'x' := by
  unfold overlapOf
  rw [List.length_replicate]
  rw [show (400 - CHUNK_OVERLAP_CHARS : Nat) = 80 from rfl]
  rw [List.drop_replicate]
  rw [show (400 - 80 : Nat) = 320 from rfl]
  have hfi : List.findIdx? (fun c => c == ' ') (List.replicate 320 'x') 0 = none :=
    findIdx?_none_of_all _ 0 (fun x hx => by rw [List.eq_of_mem_replicate hx]; rfl)
  simp only [hfi]


theorem chunkStep_c3_1 :
    chunkStep ⟨[], []⟩ (List.replicate 400 'x') = ⟨[], List.replicate 400 'x'⟩ := by
  simp only [chunkStep]
  rw [pyStrip_replicate (by decide) 400]
  rw [isEmpty_replicate_succ 400 'x' (by decide)]
  simp [-List.reduceReplicate]


theorem chunkStep_c3_2 :
    chunkStep ⟨[], List.replicate 400 'x'⟩ (List.replicate 2100 'y')
      = ⟨[List.replicate 400 'x'], c3B⟩ := by
  have hglue400 := pyStrip_xy_glue 400 2100 (by decide) (by decide)
  have hglue320 := pyStrip_xy_glue 320 2100 (by decide) (by decide)
  have hlen : (List.replicate 400 'x' ++ pstr "\n\n" ++ List.replicate 2100 'y').length
      = 2502 := by
    simp [List.length_append, List.length_replicate, -List.reduceReplicate,
      show (pstr "\n\n").length = 2 from rfl]
  simp only [chunkStep,
    pyStrip_replicate (show pyIsSpace 'y' = false from rfl) 2100,
    pyStrip_replicate (show pyIsSpace 'x' = false from rfl) 400,
    isEmpty_replicate_succ 2100 'y' (by decide),
    isEmpty_replicate_succ 400 'x' (by decide),
    Bool.not_false, if_true, Bool.false_eq_true, if_false,
    hglue400, hlen, overlapOf_rep400, hglue320,
    show (decide (CHUNK_TARGET_CHARS < 2502)) = true from rfl,
    Bool.and_self]
  rw [c3B]
  simp [-List.reduceReplicate]

theorem chunksPre_c3 : chunksPre c3Text = [c3A, c3B] := by
  have hstrip : pyStrip c3B = c3B := pyStrip_xy_glue 320 2100 (by decide) (by decide)
  have hne : c3B.isEmpty = false := by
    rw [c3B, replicate_as_succ 320 'x' (by decide)]
    rfl
  have hlen : c3B.length = 2422 := by
    rw [c3B]
    simp [List.length_append, List.length_replicate, -List.reduceReplicate,
      show (pstr "\n\n").length = 2 from rfl]
  unfold chunksPre
  rw [paraSplit_c3]
  rw [show List.foldl chunkStep (⟨[], []⟩ : ChState)
        [List.replicate 400 'x', List.replicate 2100 'y']
      = ⟨[List.replicate 400 'x'], c3B⟩ from by
    rw [List.foldl_cons, chunkStep_c3_1, List.foldl_cons, chunkStep_c3_2,
        List.foldl_nil]]
  dsimp only
  simp only [hstrip, hne, hlen, Bool.not_false, Bool.true_and,
    show (decide (MIN_CHUNK_CHARS ≤ 2422)) = true from rfl, if_true]
  rw [c3A]
  rfl

theorem split_c3 : split_into_chunks c3Text = [c3A, c3B] := by
  have hlenA : c3A.length = 400 := by rw [c3A, List.length_replicate]
  have hlenB : c3B.length = 2422 := by
    rw [c3B]
    simp [List.length_append, List.length_replicate, -List.reduceReplicate,
      show (pstr "\n\n").length = 2 from rfl]
  unfold split_into_chunks
  rw [chunksPre_c3, List.filter_cons, List.filter_cons]
  simp only [hlenA, hlenB,
    show (decide (MIN_CHUNK_CHARS ≤ 400)) = true from rfl,
    show (decide (MIN_CHUNK_CHARS ≤ 2422)) = true from rfl, if_true]
  rfl

theorem getD_replicate_self (m n : Nat) (c : Char) :
    (List.replicate m c).getD n c = c := by
  rw [List.getD_eq_getElem?_getD, List.getElem?_replicate]
  split <;> rfl

theorem c3_no_aligned : hasWordAlignedOverlap c3A c3B = false := by
  unfold hasWordAlignedOverlap
  rw [show c3A.length = 400 from by rw [c3A, List.length_replicate]]
  apply List.any_eq_false.mpr
  intro k hk
  rw [List.mem_range] at hk
  rw [Bool.not_eq_true]
  by_cases hk0 : k = 0
  · subst hk0
    have hpre : (List.drop 0 c3A).isPrefixOf c3B = false := by
      rw [List.drop_zero]
      by_contra hcon
      obtain ⟨t, ht⟩ := List.isPrefixOf_iff_prefix.mp (eq_true_of_ne_false hcon)
      have h1 : (c3A ++ t)[320]? = some 'x' := by
        rw [List.getElem?_append_left (by rw [c3A, List.length_replicate]; omega)]
        rw [c3A, List.getElem?_replicate, if_pos (by omega)]
      have h2 : c3B[320]? = some '\n' := by
        have hassoc : c3B = List.replicate 320 'x'
            ++ ('\n' :: '\n' :: List.replicate 2100 'y') := by
          have hp : pstr "\n\n" = '\n' :: '\n' :: [] := rfl
          rw [c3B, List.append_assoc, hp, List.cons_append, List.cons_append,
              List.nil_append]
        rw [hassoc, List.getElem?_append_right (by rw [List.length_replicate]),
            List.length_replicate, Nat.sub_self, List.getElem?_cons_zero]
      rw [ht] at h1
      rw [h1] at h2
      exact absurd h2 (by decide)
    rw [hpre, Bool.and_false]
  · have h2 : c3A.getD (k - 1) 'x' = 'x' := by
      rw [c3A]
      exact getD_replicate_self 400 (k - 1) 'x'
    have h1 : (k == 0 : Bool) = false := by
      simp [hk0]
    have hb : ((k == 0 : Bool) || pyIsSpace (c3A.getD (k - 1) 'x')) = false := by
      rw [h2, h1]
      rfl
    rw [hb, Bool.and_false, Bool.false_and]

/-- **C3, counterexample.**  On a 400-character single-word paragraph
followed by a 2100-character paragraph, the chunker closes the first
paragraph as a chunk and seeds the next buffer with the raw last 320
characters of it (its 320-character tail contains no space, so the
`idx >= 0` trim never fires): the two emitted chunks are the 400 `x`s
and `320 x's ++ "\n\n" ++ 2100 y's`, and *no* non-empty word-aligned
suffix of the first chunk (one starting at its start or right after a
whitespace character) is a prefix of the second — the overlap that does
appear starts mid-word, 80 characters into the 400-character word. -/
theorem chunk_overlap_not_word_aligned_cex :
    split_into_chunks c3Text = [c3A, c3B]
      ∧ hasWordAlignedOverlap c3A c3B = false :=
  ⟨split_c3, c3_no_aligned⟩


/-! ### The chunk-overlap claim (C3): the invariant the loop does establish -/

theorem headD_of_ne_nil {b : PyStr} (hb : b ≠ []) (d₁ d₂ : Char) :
    b.headD d₁ = b.headD d₂ := by
  cases b with
  | nil => exact absurd rfl hb
  | cons c t => rfl

theorem dropWhile_headD_false {α : Type} (p : α → Bool) :
    ∀ (l : List α) (d : α), l.dropWhile p ≠ [] → p ((l.dropWhile p).headD d) = false := by
  intro l
  induction l with
  | nil => intro d h; exact absurd rfl h
  | cons a t ih =>
    intro d h
    rw [List.dropWhile_cons]
    cases ha : p a with
    | true =>
      rw [List.dropWhile_cons, ha] at h
      simp only [if_true]
      exact ih d (by simpa using h)
    | false => simp [ha]

theorem prefix_headD {α : Type} {u x : List α} (h : u <+: x) (hu : u ≠ []) (d : α) :
    u.headD d = x.headD d := by
  obtain ⟨t, rfl⟩ := h
  cases u with
  | nil => exact absurd rfl hu
  | cons c r => rfl

theorem getLastD_reverse (l : PyStr) (d : Char) : l.reverse.getLastD d = l.headD d := by
  rw [List.getLastD_eq_getLast?, List.getLast?_reverse]
  cases l with
  | nil => rfl
  | cons c t => rfl

theorem pyStrip_good (s : PyStr) (h : pyStrip s ≠ []) :
    pyIsSpace ((pyStrip s).headD ' ') = false
      ∧ pyIsSpace ((pyStrip s).getLastD ' ') = false := by
  have hL : pyLStrip s ≠ [] := by
    intro hnil
    rw [pyStrip, hnil] at h
    exact h rfl
  have hpre : pyStrip s <+: pyLStrip s := by
    rw [pyStrip, pyRStrip_eq_rdropWhile]
    exact List.rdropWhile_prefix _ _
  constructor
  · rw [prefix_headD hpre h ' ']
    exact dropWhile_headD_false pyIsSpace s ' ' hL
  · have hrev : (pyLStrip s).reverse.dropWhile pyIsSpace ≠ [] := by
      intro hnil
      rw [pyStrip, pyRStrip, hnil] at h
      exact h rfl
    rw [pyStrip, pyRStrip, getLastD_reverse]
    exact dropWhile_headD_false pyIsSpace (pyLStrip s).reverse ' ' hrev

theorem pyRStrip_eq_self {s : PyStr} (h : pyIsSpace (s.getLastD 'x') = false) :
    pyRStrip s = s := by
  cases s with
  | nil => rfl
  | cons c t =>
    rw [pyRStrip_eq_rdropWhile]
    rcases List.eq_nil_or_concat (c :: t) with hnil | ⟨q, a, heq⟩
    · simp at hnil
    · rw [List.concat_eq_append] at heq
      rw [heq]
      rw [heq, getLastD_concat] at h
      exact List.rdropWhile_concat_neg pyIsSpace q a (by simp [h])

theorem pyLStrip_eq_self {s : PyStr} (h : pyIsSpace (s.headD 'x') = false) :
    pyLStrip s = s := by
  cases s with
  | nil => rfl
  | cons c t => exact pyLStrip_cons_neg (by simpa using h) t

theorem dropWhile_append_pos {α : Type} (p : α → Bool) {l₁ : List α} (l₂ : List α)
    (h : l₁.dropWhile p ≠ []) :
    (l₁ ++ l₂).dropWhile p = l₁.dropWhile p ++ l₂ := by
  induction l₁ with
  | nil => exact absurd rfl h
  | cons a t ih =>
    rw [List.cons_append, List.dropWhile_cons, List.dropWhile_cons]
    cases ha : p a with
    | true =>
      rw [List.dropWhile_cons, ha] at h
      simp only [if_true]
      exact ih (by simpa using h)
    | false => simp

theorem dropWhile_append_nil {α : Type} (p : α → Bool) {l₁ : List α} (l₂ : List α)
    (h : l₁.dropWhile p = []) :
    (l₁ ++ l₂).dropWhile p = l₂.dropWhile p := by
  induction l₁ with
  | nil => rfl
  | cons a t ih =>
    rw [List.dropWhile_cons] at h
    cases ha : p a with
    | true =>
      rw [ha] at h
      simp only [if_true] at h
      rw [List.cons_append, List.dropWhile_cons, ha]
      simp only [if_true]
      exact ih h
    | false =>
      rw [ha] at h
      simp at h

theorem headD_append {α : Type} {a : List α} (b : List α) (h : a ≠ []) (d : α) :
    (a ++ b).headD d = a.headD d := by
  cases a with
  | nil => exact absurd rfl h
  | cons c t => rfl

theorem strip_glue_pos {X para : PyStr} (hpl : pyLStrip X ≠ [])
    (hpara : para ≠ []) (hlast : pyIsSpace (para.getLastD 'x') = false) :
    pyStrip (X ++ pstr "\n\n" ++ para) = pyLStrip X ++ pstr "\n\n" ++ para := by
  have hstep : pyLStrip (X ++ pstr "\n\n" ++ para)
      = pyLStrip X ++ pstr "\n\n" ++ para := by
    rw [List.append_assoc, pyLStrip, dropWhile_append_pos pyIsSpace _ hpl,
        ← List.append_assoc]
    rfl
  rw [pyStrip, hstep]
  apply pyRStrip_eq_self
  rw [List.append_assoc, getLastD_append_right _ _ (by simp [hpara]) 'x',
      getLastD_append_right _ _ hpara 'x']
  exact hlast

theorem strip_glue_nil {X para : PyStr} (hpl : pyLStrip X = [])
    (hhead : pyIsSpace (para.headD 'x') = false)
    (hlast : pyIsSpace (para.getLastD 'x') = false) :
    pyStrip (X ++ pstr "\n\n" ++ para) = para := by
  have hnn : pyLStrip (pstr "\n\n") = [] := by decide
  have hstep : pyLStrip (X ++ pstr "\n\n" ++ para) = para := by
    rw [List.append_assoc, pyLStrip, dropWhile_append_nil pyIsSpace _ hpl,
        ← pyLStrip, pyLStrip, dropWhile_append_nil pyIsSpace _ hnn]
    exact pyLStrip_eq_self hhead
  rw [pyStrip, hstep]
  exact pyRStrip_eq_self hlast

theorem append_right_ne_nil {α : Type} {a b : List α} (h : b ≠ []) : a ++ b ≠ [] := by
  intro hnil
  exact h (List.append_eq_nil.mp hnil).2

theorem chunkStep_eq_skip {st : ChState} {para0 : PyStr}
    (h : (pyStrip para0).isEmpty = true) : chunkStep st para0 = st := by
  simp only [chunkStep, h, if_true]

theorem chunkStep_eq_new {st : ChState} {para0 : PyStr}
    (h : (pyStrip para0).isEmpty = false) (hc : st.current.isEmpty = true) :
    chunkStep st para0 = ⟨st.chunks, pyStrip para0⟩ := by
  simp only [chunkStep, h, hc, Bool.false_eq_true, if_false, Bool.not_true,
    Bool.and_false]

theorem chunkStep_eq_grow {st : ChState} {para0 : PyStr}
    (h : (pyStrip para0).isEmpty = false) (hc : st.current.isEmpty = false)
    (hlen : decide (CHUNK_TARGET_CHARS
        < (pyStrip (st.current ++ pstr "\n\n" ++ pyStrip para0)).length) = false) :
    chunkStep st para0
      = ⟨st.chunks, pyStrip (st.current ++ pstr "\n\n" ++ pyStrip para0)⟩ := by
  simp only [chunkStep, h, hc, Bool.false_eq_true, if_false, Bool.not_false,
    if_true, hlen, Bool.false_and]

theorem chunkStep_eq_split {st : ChState} {para0 : PyStr}
    (h : (pyStrip para0).isEmpty = false) (hc : st.current.isEmpty = false)
    (hlen : decide (CHUNK_TARGET_CHARS
        < (pyStrip (st.current ++ pstr "\n\n" ++ pyStrip para0)).length) = true) :
    chunkStep st para0
      = ⟨st.chunks ++ [pyStrip st.current],
         pyStrip (overlapOf st.current ++ pstr "\n\n" ++ pyStrip para0)⟩ := by
  simp only [chunkStep, h, hc, Bool.false_eq_true, if_false, Bool.not_false,
    if_true, hlen, Bool.true_and]

theorem chain'_snoc_rel {l : List PyStr} {b : PyStr} (hc : List.Chain' chunkRel l)
    (hrel : ∀ a, l.getLast? = some a → chunkRel a b) :
    List.Chain' chunkRel (l ++ [b]) := by
  rw [List.chain'_append]
  refine ⟨hc, List.chain'_singleton b, ?_⟩
  intro x hx y hy
  rw [List.head?_cons, Option.mem_def] at hy
  cases hy
  exact hrel x hx

theorem prefix_isPrefixOf_append {u v w : PyStr} (h : u.isPrefixOf v = true) :
    u.isPrefixOf (v ++ w) = true := by
  rw [List.isPrefixOf_iff_prefix] at h ⊢
  exact h.trans (List.prefix_append v w)

set_option maxHeartbeats 2000000 in
theorem chunkInv_step {st : ChState} (hinv : chunkInv st) (para0 : PyStr) :
    chunkInv (chunkStep st para0) := by
  obtain ⟨hcur, hchain, hne, hlast⟩ := hinv
  cases hp : (pyStrip para0).isEmpty with
  | true => rw [chunkStep_eq_skip hp]; exact ⟨hcur, hchain, hne, hlast⟩
  | false =>
    have hpne : pyStrip para0 ≠ [] := by simpa [List.isEmpty_iff] using hp
    have hpgood := pyStrip_good para0 hpne
    cases hc : st.current.isEmpty with
    | true =>
      have hcnil : st.current = [] := List.isEmpty_iff.mp hc
      rw [chunkStep_eq_new hp hc]
      refine ⟨Or.inr hpgood, hchain, Or.inr hpne, ?_⟩
      intro a ha
      rcases hne with hch | hcu
      · rw [hch] at ha; cases ha
      · exact absurd hcnil hcu
    | false =>
      have hcne : st.current ≠ [] := by simpa [List.isEmpty_iff] using hc
      have hcgood : pyIsSpace (st.current.headD ' ') = false
          ∧ pyIsSpace (st.current.getLastD ' ') = false := by
        rcases hcur with hnil | hg
        · exact absurd hnil hcne
        · exact hg
      have hclfix : pyLStrip st.current = st.current :=
        pyLStrip_eq_self (by rw [headD_of_ne_nil hcne 'x' ' ']; exact hcgood.1)
      have hcand : pyStrip (st.current ++ pstr "\n\n" ++ pyStrip para0)
          = st.current ++ pstr "\n\n" ++ pyStrip para0 := by
        rw [strip_glue_pos (by rw [hclfix]; exact hcne) hpne
          (by rw [getLastD_of_ne_nil hpne 'x' ' ']; exact hpgood.2), hclfix]
      cases hlen : decide (CHUNK_TARGET_CHARS
          < (pyStrip (st.current ++ pstr "\n\n" ++ pyStrip para0)).length) with
      | false =>
        rw [chunkStep_eq_grow hp hc hlen]
        refine ⟨?_, hchain, Or.inr ?_, ?_⟩
        · refine Or.inr ⟨?_, ?_⟩
          · rw [hcand, List.append_assoc,
              headD_append _ hcne ' ']
            exact hcgood.1
          · rw [hcand, List.append_assoc,
              getLastD_append_right _ _ (by simp [hpne]) ' ',
              getLastD_append_right _ _ hpne ' ']
            exact hpgood.2
        · rw [hcand]
          exact append_right_ne_nil hpne
        · intro a ha
          have hrel := hlast a ha
          intro hseed
          have h1 := hrel hseed
          rw [hcand, List.append_assoc]
          exact prefix_isPrefixOf_append h1
      | true =>
        rw [chunkStep_eq_split hp hc hlen]
        have hcfix : pyStrip st.current = st.current :=
          pyStrip_fix (by rw [headD_of_ne_nil hcne 'x' ' ']; exact hcgood.1)
            (by rw [getLastD_of_ne_nil hcne 'x' ' ']; exact hcgood.2)
        have hncne : pyStrip (overlapOf st.current ++ pstr "\n\n" ++ pyStrip para0)
            ≠ [] := by
          cases hov : (pyLStrip (overlapOf st.current)).isEmpty with
          | true =>
            rw [strip_glue_nil (List.isEmpty_iff.mp hov)
              (by rw [headD_of_ne_nil hpne 'x' ' ']; exact hpgood.1)
              (by rw [getLastD_of_ne_nil hpne 'x' ' ']; exact hpgood.2)]
            exact hpne
          | false =>
            rw [strip_glue_pos (by simpa [List.isEmpty_iff] using hov) hpne
              (by rw [getLastD_of_ne_nil hpne 'x' ' ']; exact hpgood.2)]
            exact append_right_ne_nil hpne
        refine ⟨?_, ?_, ?_, ?_⟩
        · exact Or.inr (pyStrip_good _ hncne)
        · refine chain'_snoc_rel hchain ?_
          intro a ha
          rw [hcfix]
          exact hlast a ha
        · exact Or.inr hncne
        · intro a ha
          rw [List.getLast?_concat] at ha
          cases ha
          rw [hcfix]
          intro hseed
          rw [strip_glue_pos hseed hpne
            (by rw [getLastD_of_ne_nil hpne 'x' ' ']; exact hpgood.2),
            List.append_assoc]
          rw [List.isPrefixOf_iff_prefix]
          exact List.prefix_append _ _

theorem chunkInv_foldl :
    ∀ (ps : List PyStr) (st : ChState), chunkInv st →
      chunkInv (ps.foldl chunkStep st) := by
  intro ps
  induction ps with
  | nil => intro st h; exact h
  | cons p t ih =>
    intro st h
    rw [List.foldl_cons]
    exact ih _ (chunkInv_step h p)

theorem chunkInv_init : chunkInv ⟨[], []⟩ := by
  refine ⟨Or.inl rfl, List.chain'_nil, Or.inl rfl, ?_⟩
  intro a ha
  cases ha

/-- **C3, amended.**  For every input text, each adjacent pair of chunks
in the sequence built by the splitting loop (adjacent because a split
occurred between them; before the final minimum-length filter) satisfies
the overlap relation the code establishes: whenever the overlap seed
derived from the left chunk — its last `CHUNK_OVERLAP_CHARS` characters,
cut past the first space when that tail contains one, then stripped of
leading whitespace — is non-empty, it is a prefix of the right chunk.
The seed is *not* always word-aligned: when the tail contains no space
the raw tail is kept whole and the overlap may start mid-word, as
`chunk_overlap_not_word_aligned_cex` shows. -/
theorem chunk_overlap_amended (text : PyStr) :
    List.Chain' chunkRel (chunksPre text) := by
  obtain ⟨hcur, hchain, hne, hlast⟩ :=
    chunkInv_foldl (paraSplit text) ⟨[], []⟩ chunkInv_init
  unfold chunksPre
  cases hcond : (!(pyStrip ((paraSplit text).foldl chunkStep ⟨[], []⟩).current).isEmpty
      && decide (MIN_CHUNK_CHARS
        ≤ (pyStrip ((paraSplit text).foldl chunkStep ⟨[], []⟩).current).length)) with
  | false =>
    simp only [hcond, Bool.false_eq_true, if_false, List.append_nil]
    exact hchain
  | true =>
    simp only [hcond, if_true]
    have hpne : pyStrip ((paraSplit text).foldl chunkStep ⟨[], []⟩).current ≠ [] := by
      have h1 := (Bool.and_eq_true .. ▸ hcond).1
      simpa [List.isEmpty_iff] using h1
    have hcne : ((paraSplit text).foldl chunkStep ⟨[], []⟩).current ≠ [] := by
      intro hnil
      rw [hnil] at hpne
      exact hpne rfl
    rcases hcur with hnil | hcgood
    · exact absurd hnil hcne
    have hcfix : pyStrip ((paraSplit text).foldl chunkStep ⟨[], []⟩).current
        = ((paraSplit text).foldl chunkStep ⟨[], []⟩).current :=
      pyStrip_fix (by rw [headD_of_ne_nil hcne 'x' ' ']; exact hcgood.1)
        (by rw [getLastD_of_ne_nil hcne 'x' ' ']; exact hcgood.2)
    rw [hcfix]
    exact chain'_snoc_rel hchain hlast

/-! ### The heading rule (C7): `extract_heading` as a first-match search -/

theorem append_left_ne_nil {α : Type} {a : List α} (b : List α) (h : a ≠ []) :
    a ++ b ≠ [] := by
  intro hnil
  exact h (List.append_eq_nil.mp hnil).1

theorem pyWordsAux_ne_nil_of_acc :
    ∀ (s acc : PyStr), acc ≠ [] → pyWordsAux s acc ≠ [] := by
  intro s
  induction s with
  | nil =>
    intro acc h
    simp only [pyWordsAux]
    rw [if_neg (by simpa [List.isEmpty_iff] using h)]
    simp
  | cons c t ih =>
    intro acc h
    simp only [pyWordsAux]
    cases hsp : pyIsSpace c with
    | true =>
      rw [if_pos rfl, if_neg (by simpa [List.isEmpty_iff] using h)]
      simp
    | false =>
      rw [if_neg (by simp)]
      exact ih (c :: acc) (by simp)

theorem pyWordsAux_ne_nil_of_nonspace :
    ∀ (s acc : PyStr), (∃ c ∈ s, pyIsSpace c = false) → pyWordsAux s acc ≠ [] := by
  intro s
  induction s with
  | nil =>
    intro acc h
    obtain ⟨c, hc, _⟩ := h
    cases hc
  | cons c t ih =>
    intro acc h
    simp only [pyWordsAux]
    cases hsp : pyIsSpace c with
    | true =>
      rw [if_pos rfl]
      have hwit : ∃ d ∈ t, pyIsSpace d = false := by
        obtain ⟨d, hd, hdsp⟩ := h
        rcases List.mem_cons.mp hd with rfl | hd'
        · rw [hsp] at hdsp; cases hdsp
        · exact ⟨d, hd', hdsp⟩
      cases hacc : acc.isEmpty with
      | true => rw [if_pos rfl]; exact ih [] hwit
      | false => rw [if_neg (by simp)]; simp
    | false =>
      rw [if_neg (by simp)]
      exact pyWordsAux_ne_nil_of_acc t (c :: acc) (by simp)

theorem pyWordsAux_two_of_space :
    ∀ (s acc : PyStr), pyIsSpace (s.getLastD ' ') = false →
      s.any pyIsSpace = true → acc ≠ [] → 2 ≤ (pyWordsAux s acc).length := by
  intro s
  induction s with
  | nil =>
    intro acc _ hany _
    simp at hany
  | cons c t ih =>
    intro acc hlast hany hacc
    simp only [pyWordsAux]
    cases hsp : pyIsSpace c with
    | true =>
      rw [if_pos rfl, if_neg (by simpa [List.isEmpty_iff] using hacc)]
      have htne : t ≠ [] := by
        intro h
        subst h
        rw [List.getLastD_cons] at hlast
        rw [show ([] : PyStr).getLastD c = c from rfl] at hlast
        rw [hsp] at hlast
        cases hlast
      rcases List.eq_nil_or_concat t with h | ⟨q, a, heq⟩
      · exact absurd h htne
      rw [List.concat_eq_append] at heq
      have hlastt : pyIsSpace a = false := by
        rw [List.getLastD_cons, getLastD_of_ne_nil htne c ' ', heq,
          getLastD_concat] at hlast
        exact hlast
      have hne := pyWordsAux_ne_nil_of_nonspace t []
        ⟨a, by rw [heq]; simp, hlastt⟩
      have h1 : 1 ≤ (pyWordsAux t []).length := by
        cases hh : pyWordsAux t [] with
        | nil => exact absurd hh hne
        | cons x xs => simp
      simp only [List.length_cons]
      omega
    | false =>
      rw [if_neg (by simp)]
      have htne : t ≠ [] := by
        intro h
        subst h
        simp only [List.any_cons, hsp] at hany
        simp at hany
      have hlastt : pyIsSpace (t.getLastD ' ') = false := by
        rw [List.getLastD_cons, getLastD_of_ne_nil htne c ' '] at hlast
        exact hlast
      have hanyt : t.any pyIsSpace = true := by
        rw [List.any_cons, hsp, Bool.false_or] at hany
        exact hany
      exact ih (c :: acc) hlastt hanyt (by simp)

theorem pyWordsAux_all_nonspace :
    ∀ (s acc : PyStr), (∀ x ∈ s, pyIsSpace x = false) → acc.reverse ++ s ≠ [] →
      pyWordsAux s acc = [acc.reverse ++ s] := by
  intro s
  induction s with
  | nil =>
    intro acc _ hne
    rw [List.append_nil] at hne
    have hacc : acc ≠ [] := by
      intro h
      subst h
      exact hne rfl
    simp only [pyWordsAux]
    rw [if_neg (by simpa [List.isEmpty_iff] using hacc), List.append_nil]
  | cons c t ih =>
    intro acc hall hne
    have hc : pyIsSpace c = false := hall c (by simp)
    simp only [pyWordsAux]
    rw [if_neg (by simp [hc])]
    rw [ih (c :: acc) (fun x hx => hall x (by simp [hx]))
      (by rw [List.reverse_cons]
          exact append_left_ne_nil t (append_right_ne_nil (by simp)))]
    rw [List.reverse_cons, List.append_assoc]
    rfl

theorem single_word {t w : PyStr} (hh : pyIsSpace (t.headD ' ') = false)
    (hl : pyIsSpace (t.getLastD ' ') = false) (hw : pyWords t = [w]) : w = t := by
  cases t with
  | nil => simp [pyWords, pyWordsAux] at hw
  | cons c r =>
    have hc : pyIsSpace c = false := by simpa using hh
    have hred : pyWords (c :: r) = pyWordsAux r [c] := by
      rw [pyWords]
      simp only [pyWordsAux, hc, Bool.false_eq_true, if_false]
    have hno : (c :: r).any pyIsSpace = false := by
      cases hany : (c :: r).any pyIsSpace with
      | false => rfl
      | true =>
        exfalso
        have hanyr : r.any pyIsSpace = true := by
          rw [List.any_cons, hc, Bool.false_or] at hany
          exact hany
        have hrne : r ≠ [] := by
          intro h
          subst h
          simp at hanyr
        have hlr : pyIsSpace (r.getLastD ' ') = false := by
          rw [List.getLastD_cons, getLastD_of_ne_nil hrne c ' '] at hl
          exact hl
        have h2 := pyWordsAux_two_of_space r [c] hlr hanyr (by simp)
        rw [← hred, hw] at h2
        simp at h2
    have hall : ∀ x ∈ (c :: r), pyIsSpace x = false := by
      intro x hx
      have hnx := List.any_eq_false.mp hno x hx
      cases hb : pyIsSpace x with
      | true => exact absurd hb hnx
      | false => rfl
    have heq := pyWordsAux_all_nonspace (c :: r) [] hall (by simp)
    rw [pyWords, heq] at hw
    simp only [List.reverse_nil, List.nil_append] at hw
    have hinj := List.cons.inj hw
    exact hinj.1.symm

theorem headingLoop_find : ∀ ls : List PyStr,
    headingLoop ls = (ls.map pyStrip).find? headingOk := by
  intro ls
  induction ls with
  | nil => rfl
  | cons line ls ih =>
    rw [List.map_cons]
    simp only [headingLoop]
    cases houter : ((3 ≤ (pyStrip line).length && (pyStrip line).length ≤ 80)
        && !((pyStrip line).getLast? == some '.')
        && ((pyStrip line).headD ' ').isUpper) with
    | false =>
      simp only [houter, Bool.false_eq_true, if_false]
      rw [List.find?_cons_of_neg, ih]
      unfold headingOk
      rw [houter, Bool.false_and]
      simp
    | true =>
      have h3 : 3 ≤ (pyStrip line).length := by
        have h1 := ((Bool.and_eq_true _ _).mp
          ((Bool.and_eq_true _ _).mp houter).1).1
        have h2 := ((Bool.and_eq_true _ _).mp h1).1
        exact of_decide_eq_true h2
      have htne : pyStrip line ≠ [] := by
        intro h
        rw [h] at h3
        simp at h3
      have hgood := pyStrip_good line htne
      have hinner : ((2 ≤ (pyWords (pyStrip line)).length
            || ((pyWords (pyStrip line)).length == 1
                && 5 < (pyStrip line).length)) : Bool)
          = (2 ≤ (pyWords (pyStrip line)).length
            || (match pyWords (pyStrip line) with
                | [w] => 5 < w.length
                | _ => false)) := by
        cases hwrd : pyWords (pyStrip line) with
        | nil => rfl
        | cons w ws =>
          cases ws with
          | nil =>
            have hwt : w = pyStrip line := single_word hgood.1 hgood.2 hwrd
            rw [hwt]
            simp only [List.length_cons, List.length_nil]
            rfl
          | cons x xs =>
            have h2 : 2 ≤ (w :: x :: xs).length := by
              simp only [List.length_cons]
              omega
            rw [decide_eq_true h2, Bool.true_or, Bool.true_or]
      cases hin : ((2 ≤ (pyWords (pyStrip line)).length
          || ((pyWords (pyStrip line)).length == 1
              && 5 < (pyStrip line).length)) : Bool) with
      | true =>
        simp only [houter, if_true, hin]
        rw [List.find?_cons_of_pos]
        unfold headingOk
        rw [houter, Bool.true_and, ← hinner, hin]
      | false =>
        simp only [houter, if_true, hin, Bool.false_eq_true, if_false]
        rw [List.find?_cons_of_neg, ih]
        unfold headingOk
        rw [houter, Bool.true_and, ← hinner, hin]
        simp

/-- **C7.**  `extract_heading` examines only the first 6 lines of the
chunk and returns the first line which, after trimming, satisfies the
heading rule exactly as the specification words it (`headingOk`):
length between 3 and 80, no trailing period, uppercase first character,
and at least two words or a single word longer than 5 characters (for a
trimmed single-word line the code's `len(stripped) > 5` coincides with
the word's own length, since that word is the whole trimmed line);
`none` when no line among the first 6 qualifies. -/
theorem heading_first_match (text : PyStr) :
    extract_heading text = (((pySplitNl text).take 6).map pyStrip).find? headingOk := by
  rw [extract_heading, headingLoop_find]

/-! ### The idempotence claim (C2): what a second `clean_text` pass does -/

theorem replCRLF_cons_cr (t : PyStr) : replCRLF ('\r' :: '\n' :: t) = '\n' :: replCRLF t := rfl

theorem replCRLF_cons_ne {c : Char} (h : c ≠ '\r') (t : PyStr) :
    replCRLF (c :: t) = c :: replCRLF t := by
  rw [replCRLF.eq_def]
  split
  · rename_i t' heq
    rw [List.cons.injEq] at heq
    exact absurd heq.1 h
  · rename_i c' t' heq
    rw [List.cons.injEq] at heq
    rw [heq.1, heq.2]
  · rename_i heq
    cases heq

theorem replCR_cons_cr (t : PyStr) : replCR ('\r' :: t) = '\n' :: replCR t := rfl

theorem replCR_cons_ne {c : Char} (h : c ≠ '\r') (t : PyStr) :
    replCR (c :: t) = c :: replCR t := by
  rw [replCR.eq_def]
  split
  · rename_i t' heq
    rw [List.cons.injEq] at heq
    exact absurd heq.1 h
  · rename_i c' t' heq
    rw [List.cons.injEq] at heq
    rw [heq.1, heq.2]
  · rename_i heq
    cases heq

theorem replFF_cons_ff (t : PyStr) : replFF ('\x0c' :: t) = '\n' :: '\n' :: replFF t := rfl

theorem replFF_cons_ne {c : Char} (h : c ≠ '\x0c') (t : PyStr) :
    replFF (c :: t) = c :: replFF t := by
  rw [replFF.eq_def]
  split
  · rename_i t' heq
    rw [List.cons.injEq] at heq
    exact absurd heq.1 h
  · rename_i c' t' heq
    rw [List.cons.injEq] at heq
    rw [heq.1, heq.2]
  · rename_i heq
    cases heq

theorem replCRLF_id {s : PyStr} (h : '\r' ∉ s) : replCRLF s = s := by
  induction s with
  | nil => rfl
  | cons c t ih =>
    have hc : c ≠ '\r' := fun hc => h (by rw [hc]; simp)
    rw [replCRLF_cons_ne hc, ih (fun hm => h (by simp [hm]))]

theorem replCR_id {s : PyStr} (h : '\r' ∉ s) : replCR s = s := by
  induction s with
  | nil => rfl
  | cons c t ih =>
    have hc : c ≠ '\r' := fun hc => h (by rw [hc]; simp)
    rw [replCR_cons_ne hc, ih (fun hm => h (by simp [hm]))]

theorem replFF_id {s : PyStr} (h : '\x0c' ∉ s) : replFF s = s := by
  induction s with
  | nil => rfl
  | cons c t ih =>
    have hc : c ≠ '\x0c' := fun hc => h (by rw [hc]; simp)
    rw [replFF_cons_ne hc, ih (fun hm => h (by simp [hm]))]

theorem replCR_no_cr : ∀ s : PyStr, '\r' ∉ replCR s := by
  intro s
  induction s with
  | nil => simp [replCR]
  | cons c t ih =>
    by_cases hc : c = '\r'
    · subst hc
      rw [replCR_cons_cr]
      intro hmem
      rcases List.mem_cons.mp hmem with h | h
      · cases h
      · exact ih h
    · rw [replCR_cons_ne hc]
      intro hmem
      rcases List.mem_cons.mp hmem with h | h
      · exact hc h.symm
      · exact ih h

theorem mem_replFF {c : Char} : ∀ s : PyStr, c ∈ replFF s → c ∈ s ∨ c = '\n' := by
  intro s
  induction s with
  | nil => intro h; cases h
  | cons d t ih =>
    by_cases hd : d = '\x0c'
    · subst hd
      rw [replFF_cons_ff]
      intro hmem
      rcases List.mem_cons.mp hmem with h | h
      · exact Or.inr h
      rcases List.mem_cons.mp h with h2 | h2
      · exact Or.inr h2
      · rcases ih h2 with h3 | h3
        · exact Or.inl (by simp [h3])
        · exact Or.inr h3
    · rw [replFF_cons_ne hd]
      intro hmem
      rcases List.mem_cons.mp hmem with h | h
      · exact Or.inl (by simp [h])
      · rcases ih h with h3 | h3
        · exact Or.inl (by simp [h3])
        · exact Or.inr h3

theorem replFF_no_ff : ∀ s : PyStr, '\x0c' ∉ replFF s := by
  intro s
  induction s with
  | nil => simp [replFF]
  | cons c t ih =>
    by_cases hc : c = '\x0c'
    · subst hc
      rw [replFF_cons_ff]
      intro hmem
      rcases List.mem_cons.mp hmem with h | h
      · cases h
      rcases List.mem_cons.mp h with h2 | h2
      · cases h2
      · exact ih h2
    · rw [replFF_cons_ne hc]
      intro hmem
      rcases List.mem_cons.mp hmem with h | h
      · exact hc h.symm
      · exact ih h

theorem subHyphen_four (c d e f : Char) (t : PyStr) :
    subHyphen (c :: d :: e :: f :: t)
      = if pyIsWord c && d == '-' && e == '\n' && pyIsWord f
        then c :: f :: subHyphen t
        else c :: subHyphen (d :: e :: f :: t) := rfl

theorem hasHyphenMatch_four (c d e f : Char) (t : PyStr) :
    hasHyphenMatch (c :: d :: e :: f :: t)
      = if pyIsWord c && d == '-' && e == '\n' && pyIsWord f
        then true
        else hasHyphenMatch (d :: e :: f :: t) := rfl

theorem subHyphen_id : ∀ s : PyStr, hasHyphenMatch s = false → subHyphen s = s := by
  intro s
  induction s with
  | nil => intro _; rfl
  | cons c rest ih =>
    intro h
    match rest with
    | [] => rfl
    | [d] => rfl
    | [d, e] => rfl
    | d :: e :: f :: t =>
      rw [hasHyphenMatch_four] at h
      rw [subHyphen_four]
      cases hcond : (pyIsWord c && d == '-' && e == '\n' && pyIsWord f) with
      | true => rw [hcond, if_pos rfl] at h; cases h
      | false =>
        rw [hcond] at h
        simp only [Bool.false_eq_true, if_false] at h ⊢
        rw [ih h]

theorem mem_subHyphen_len {c : Char} :
    ∀ (n : Nat) (s : PyStr), s.length ≤ n → c ∈ subHyphen s → c ∈ s := by
  intro n
  induction n with
  | zero =>
    intro s hlen hmem
    rw [List.length_eq_zero.mp (Nat.le_zero.mp hlen)] at hmem
    cases hmem
  | succ n ih =>
    intro s hlen hmem
    match s with
    | [] => cases hmem
    | [a] => exact hmem
    | [a, d] => exact hmem
    | [a, d, e] => exact hmem
    | a :: d :: e :: f :: t =>
      rw [subHyphen_four] at hmem
      simp only [List.length_cons] at hlen
      cases hcond : (pyIsWord a && d == '-' && e == '\n' && pyIsWord f) with
      | true =>
        rw [hcond, if_pos rfl] at hmem
        rcases List.mem_cons.mp hmem with h | h
        · simp [h]
        rcases List.mem_cons.mp h with h2 | h2
        · simp [h2]
        · have := ih t (by omega) h2
          simp [this]
      | false =>
        rw [hcond] at hmem
        simp only [Bool.false_eq_true, if_false] at hmem
        rcases List.mem_cons.mp hmem with h | h
        · simp [h]
        · have := ih (d :: e :: f :: t) (by simp; omega) h
          simp only [List.mem_cons] at this ⊢
          tauto

theorem mem_subHyphen {c : Char} {s : PyStr} (h : c ∈ subHyphen s) : c ∈ s :=
  mem_subHyphen_len s.length s (Nat.le_refl _) h

theorem subPN_skip_cons (c : Char) (t : PyStr) (skip : Nat) (b : Bool) :
    subPN (c :: t) (skip + 1) b = subPN t skip (c == '\n') := rfl

theorem subPN_zero_cons (c : Char) (t : PyStr) (b : Bool) :
    subPN (c :: t) 0 b
      = if b then
          match matchPageNum (c :: t) with
          | some n => subPN t (n - 1) (c == '\n')
          | none => c :: subPN t 0 (c == '\n')
        else c :: subPN t 0 (c == '\n') := rfl

theorem hasPageNumMatch_cons (c : Char) (t : PyStr) (b : Bool) :
    hasPageNumMatch (c :: t) b
      = if b && (matchPageNum (c :: t)).isSome then true
        else hasPageNumMatch t (c == '\n') := rfl

theorem subPN_id : ∀ (s : PyStr) (b : Bool),
    hasPageNumMatch s b = false → subPN s 0 b = s := by
  intro s
  induction s with
  | nil => intro b _; rfl
  | cons c t ih =>
    intro b h
    rw [hasPageNumMatch_cons] at h
    cases hb : (b && (matchPageNum (c :: t)).isSome) with
    | true => rw [hb, if_pos rfl] at h; cases h
    | false =>
      rw [hb] at h
      simp only [Bool.false_eq_true, if_false] at h
      rw [subPN_zero_cons]
      cases b with
      | false =>
        simp only [Bool.false_eq_true, if_false]
        rw [ih _ h]
      | true =>
        simp only [if_true]
        rw [Bool.true_and] at hb
        have hnone : matchPageNum (c :: t) = none :=
          Option.not_isSome_iff_eq_none.mp (by rw [hb]; simp)
        rw [hnone]
        rw [ih _ h]

theorem pySubPageNum_id {s : PyStr} (h : hasPageNumMatch s true = false) :
    pySubPageNum s = s := by
  rw [pySubPageNum, subPN_id s true h]

theorem mem_subPN {c : Char} :
    ∀ (s : PyStr) (k : Nat) (b : Bool), c ∈ subPN s k b → c ∈ s := by
  intro s
  induction s with
  | nil => intro k b h; cases h
  | cons d t ih =>
    intro k b hmem
    cases k with
    | succ k' =>
      rw [subPN_skip_cons] at hmem
      simp [ih k' _ hmem]
    | zero =>
      rw [subPN_zero_cons] at hmem
      cases b with
      | false =>
        simp only [Bool.false_eq_true, if_false] at hmem
        rcases List.mem_cons.mp hmem with h | h
        · simp [h]
        · simp [ih 0 _ h]
      | true =>
        simp only [if_true] at hmem
        cases hm : matchPageNum (d :: t) with
        | some n =>
          rw [hm] at hmem
          simp [ih (n - 1) _ hmem]
        | none =>
          rw [hm] at hmem
          rcases List.mem_cons.mp hmem with h | h
          · simp [h]
          · simp [ih 0 _ h]

theorem hasTripleNl_triple (r : PyStr) :
    hasTripleNl ('\n' :: '\n' :: '\n' :: r) = true := rfl

theorem hasTripleNl_tail {c : Char} {t : PyStr} (h : hasTripleNl t = true) :
    hasTripleNl (c :: t) = true := by
  rw [hasTripleNl.eq_def]
  split
  · rfl
  · rename_i c' t' heq
    rw [List.cons.injEq] at heq
    rw [← heq.2]
    exact h
  · rename_i heq
    cases heq

theorem hasTripleNl_cons_tail {c : Char} {t : PyStr}
    (h : hasTripleNl (c :: t) = false) : hasTripleNl t = false := by
  cases ht : hasTripleNl t with
  | false => rfl
  | true => rw [hasTripleNl_tail ht] at h; cases h

theorem takeWhile_two {p : Char → Bool} {t : PyStr}
    (h : 2 ≤ (t.takeWhile p).length) :
    ∃ a b r, t = a :: b :: r ∧ p a = true ∧ p b = true := by
  cases t with
  | nil => simp at h
  | cons a r =>
    rw [List.takeWhile_cons] at h
    cases hpa : p a with
    | false => rw [hpa] at h; simp at h
    | true =>
      rw [hpa] at h
      simp only [if_true, List.length_cons] at h
      cases r with
      | nil => simp at h
      | cons b r2 =>
        rw [List.takeWhile_cons] at h
        cases hpb : p b with
        | false => rw [hpb] at h; simp at h
        | true => exact ⟨a, b, r2, rfl, hpa, hpb⟩

theorem collapseNlAux_cons (c : Char) (t : PyStr) (b : Bool) :
    collapseNlAux (c :: t) b
      = if c = '\n' then
          if b then collapseNlAux t true
          else if 2 ≤ (t.takeWhile (fun d => d == '\n')).length
          then '\n' :: '\n' :: collapseNlAux t true
          else '\n' :: collapseNlAux t false
        else c :: collapseNlAux t false := rfl

theorem collapseNl_id : ∀ s : PyStr, hasTripleNl s = false →
    collapseNlAux s false = s := by
  intro s
  induction s with
  | nil => intro _; rfl
  | cons c t ih =>
    intro h
    have ht := hasTripleNl_cons_tail h
    rw [collapseNlAux_cons]
    by_cases hc : c = '\n'
    · subst hc
      simp only [if_pos rfl, Bool.false_eq_true, if_false]
      have hw : ¬ 2 ≤ (t.takeWhile (fun d => d == '\n')).length := by
        intro hw2
        obtain ⟨a, b, r, rfl, hpa, hpb⟩ := takeWhile_two hw2
        rw [eq_of_beq hpa, eq_of_beq hpb] at h
        rw [hasTripleNl_triple] at h
        cases h
      rw [if_neg hw, ih ht]
      simp
    · rw [if_neg hc, ih ht]

theorem mem_collapseNlAux {c : Char} :
    ∀ (s : PyStr) (b : Bool), c ∈ collapseNlAux s b → c ∈ s ∨ c = '\n' := by
  intro s
  induction s with
  | nil => intro b h; cases h
  | cons d t ih =>
    intro b hmem
    rw [collapseNlAux_cons] at hmem
    by_cases hd : d = '\n'
    · subst hd
      rw [if_pos rfl] at hmem
      cases b with
      | true =>
        simp only [if_true] at hmem
        rcases ih true hmem with h | h
        · simp [h]
        · exact Or.inr h
      | false =>
        simp only [Bool.false_eq_true, if_false] at hmem
        by_cases hw : 2 ≤ (t.takeWhile (fun d => d == '\n')).length
        · rw [if_pos hw] at hmem
          rcases List.mem_cons.mp hmem with h | h
          · exact Or.inr h
          rcases List.mem_cons.mp h with h2 | h2
          · exact Or.inr h2
          rcases ih true h2 with h3 | h3
          · simp [h3]
          · exact Or.inr h3
        · rw [if_neg hw] at hmem
          rcases List.mem_cons.mp hmem with h | h
          · exact Or.inr h
          rcases ih false h with h3 | h3
          · simp [h3]
          · exact Or.inr h3
    · rw [if_neg hd] at hmem
      rcases List.mem_cons.mp hmem with h | h
      · simp [h]
      rcases ih false h with h3 | h3
      · simp [h3]
      · exact Or.inr h3

theorem collapseSTAux_cons (c : Char) (t : PyStr) (b : Bool) :
    collapseSTAux (c :: t) b
      = if isST c then
          if b then collapseSTAux t true
          else if 1 ≤ (t.takeWhile isST).length
          then ' ' :: collapseSTAux t true
          else c :: collapseSTAux t false
        else c :: collapseSTAux t false := rfl

theorem collapseST_id_aux : ∀ s : PyStr, hasDoubleST s = false →
    collapseSTAux s false = s := by
  intro s
  induction s with
  | nil => intro _; rfl
  | cons c t ih =>
    intro h
    have hdbl_cons : ∀ (d : Char) (r : PyStr), hasDoubleST (d :: r)
        = ((isST d && isST (r.headD 'q')) || hasDoubleST r) := by
      intro d r
      cases r with
      | nil => simp [hasDoubleST, isST]
      | cons e r2 => rfl
    rw [hdbl_cons] at h
    have ht : hasDoubleST t = false := by
      cases hx : hasDoubleST t with
      | false => rfl
      | true => rw [hx, Bool.or_true] at h; cases h
    rw [collapseSTAux_cons]
    cases hc : isST c with
    | false => rw [if_neg (by simp [hc]), ih ht]
    | true =>
      rw [if_pos (by simp [hc])]
      simp only [Bool.false_eq_true, if_false]
      have hw : ¬ 1 ≤ (t.takeWhile isST).length := by
        intro hw1
        have htne : t.takeWhile isST ≠ [] := by
          intro hnil
          rw [hnil] at hw1
          simp at hw1
        cases t with
        | nil => simp at htne
        | cons e r =>
          rw [List.takeWhile_cons] at htne
          cases he : isST e with
          | false => rw [he] at htne; simp at htne
          | true =>
            rw [hc] at h
            rw [show (e :: r).headD 'q' = e from rfl, he] at h
            simp at h
      rw [if_neg hw, ih ht]

theorem mem_collapseSTAux {c : Char} :
    ∀ (s : PyStr) (b : Bool), c ∈ collapseSTAux s b → c ∈ s ∨ c = ' ' := by
  intro s
  induction s with
  | nil => intro b h; cases h
  | cons d t ih =>
    intro b hmem
    rw [collapseSTAux_cons] at hmem
    cases hd : isST d with
    | false =>
      rw [if_neg (by simp [hd])] at hmem
      rcases List.mem_cons.mp hmem with h | h
      · simp [h]
      rcases ih false h with h3 | h3
      · simp [h3]
      · exact Or.inr h3
    | true =>
      rw [if_pos (by simp [hd])] at hmem
      cases b with
      | true =>
        rcases ih true (by simpa using hmem) with h | h
        · simp [h]
        · exact Or.inr h
      | false =>
        simp only [Bool.false_eq_true, if_false] at hmem
        by_cases hw : 1 ≤ (t.takeWhile isST).length
        · rw [if_pos hw] at hmem
          rcases List.mem_cons.mp hmem with h | h
          · exact Or.inr h
          rcases ih true h with h3 | h3
          · simp [h3]
          · exact Or.inr h3
        · rw [if_neg hw] at hmem
          rcases List.mem_cons.mp hmem with h | h
          · simp [h]
          rcases ih false h with h3 | h3
          · simp [h3]
          · exact Or.inr h3

theorem pySplitNl_ne_nil : ∀ s : PyStr, pySplitNl s ≠ [] := by
  intro s
  cases s with
  | nil => simp [pySplitNl]
  | cons c t =>
    simp only [pySplitNl]
    cases hsp : pySplitNl t with
    | nil => simp
    | cons h hs =>
      by_cases hc : c = '\n'
      · simp [hc]
      · simp [hc]

theorem pyJoinNl_cons_head (c : Char) (h : PyStr) (hs : List PyStr) :
    pyJoinNl ((c :: h) :: hs) = c :: pyJoinNl (h :: hs) := by
  cases hs with
  | nil => rfl
  | cons k ks => rfl

theorem pySplitNl_cons (c : Char) (t : PyStr) {h : PyStr} {hs : List PyStr}
    (hsp : pySplitNl t = h :: hs) :
    pySplitNl (c :: t) = if c = '\n' then [] :: h :: hs else (c :: h) :: hs := by
  simp only [pySplitNl]
  rw [hsp]

theorem join_split : ∀ s : PyStr, pyJoinNl (pySplitNl s) = s := by
  intro s
  induction s with
  | nil => rfl
  | cons c t ih =>
    cases hsp : pySplitNl t with
    | nil => exact absurd hsp (pySplitNl_ne_nil t)
    | cons h hs =>
      rw [pySplitNl_cons c t hsp]
      by_cases hc : c = '\n'
      · subst hc
        rw [if_pos rfl]
        show '\n' :: pyJoinNl (h :: hs) = '\n' :: t
        rw [← hsp, ih]
      · rw [if_neg hc, pyJoinNl_cons_head, ← hsp, ih]

theorem split_no_nl : ∀ (s : PyStr) (l : PyStr), l ∈ pySplitNl s → '\n' ∉ l := by
  intro s
  induction s with
  | nil =>
    intro l hl
    simp only [pySplitNl, List.mem_singleton] at hl
    subst hl
    simp
  | cons c t ih =>
    intro l hl
    cases hsp : pySplitNl t with
    | nil => exact absurd hsp (pySplitNl_ne_nil t)
    | cons h hs =>
      rw [pySplitNl_cons c t hsp] at hl
      by_cases hc : c = '\n'
      · rw [if_pos hc] at hl
        rcases List.mem_cons.mp hl with rfl | hl2
        · simp
        · exact ih l (by rw [hsp]; exact hl2)
      · rw [if_neg hc] at hl
        rcases List.mem_cons.mp hl with rfl | hl2
        · intro hmem
          rcases List.mem_cons.mp hmem with h2 | h2
          · exact hc h2.symm
          · exact ih h (by rw [hsp]; simp) h2
        · exact ih l (by rw [hsp]; simp [hl2])

theorem split_single {l : PyStr} (h : '\n' ∉ l) : pySplitNl l = [l] := by
  induction l with
  | nil => rfl
  | cons c t ih =>
    have hc : c ≠ '\n' := fun hc => h (by rw [hc]; simp)
    have ht := ih (fun hm => h (by simp [hm]))
    rw [pySplitNl_cons c t ht, if_neg hc]

theorem split_append_nl {l : PyStr} (r : PyStr) (h : '\n' ∉ l) :
    pySplitNl (l ++ '\n' :: r) = l :: pySplitNl r := by
  induction l with
  | nil =>
    cases hsp : pySplitNl r with
    | nil => exact absurd hsp (pySplitNl_ne_nil r)
    | cons k ks =>
      rw [List.nil_append, pySplitNl_cons '\n' r hsp, if_pos rfl]
  | cons c l2 ih =>
    have hc : c ≠ '\n' := fun hc => h (by rw [hc]; simp)
    have hrec := ih (fun hm => h (by simp [hm]))
    rw [List.cons_append]
    cases hsp : pySplitNl r with
    | nil => exact absurd hsp (pySplitNl_ne_nil r)
    | cons k ks =>
      rw [hsp] at hrec
      rw [pySplitNl_cons c (l2 ++ '\n' :: r) hrec, if_neg hc]

theorem split_join : ∀ ls : List PyStr, (∀ l ∈ ls, '\n' ∉ l) → ls ≠ [] →
    pySplitNl (pyJoinNl ls) = ls := by
  intro ls
  induction ls with
  | nil => intro _ h; exact absurd rfl h
  | cons l ls2 ih =>
    intro hall _
    cases ls2 with
    | nil => exact split_single (hall l (by simp))
    | cons m ms =>
      show pySplitNl (l ++ '\n' :: pyJoinNl (m :: ms)) = l :: m :: ms
      rw [split_append_nl _ (hall l (by simp)),
        ih (fun x hx => hall x (by simp [hx])) (by simp)]

theorem split_head_shape : ∀ s : PyStr, ∃ h hs, pySplitNl s = h :: hs
    ∧ h <+: s ∧ ∀ l ∈ hs, l <:+: s := by
  intro s
  induction s with
  | nil =>
    refine ⟨[], [], rfl, List.nil_prefix, ?_⟩
    intro l hl
    cases hl
  | cons c t ih =>
    obtain ⟨h, hs, heq, hpre, hinf⟩ := ih
    by_cases hc : c = '\n'
    · refine ⟨[], h :: hs, by rw [pySplitNl_cons c t heq, if_pos hc],
        List.nil_prefix, ?_⟩
      intro l hl
      rcases List.mem_cons.mp hl with rfl | hl2
      · exact hpre.isInfix.trans (List.infix_cons_iff.mpr (Or.inr (List.infix_refl t)))
      · exact (hinf l hl2).trans (List.infix_cons_iff.mpr (Or.inr (List.infix_refl t)))
    · refine ⟨c :: h, hs, by rw [pySplitNl_cons c t heq, if_neg hc], ?_, ?_⟩
      · obtain ⟨u, hu⟩ := hpre
        exact ⟨u, by rw [List.cons_append, hu]⟩
      · intro l hl
        exact (hinf l hl).trans (List.infix_cons_iff.mpr (Or.inr (List.infix_refl t)))

theorem infix_of_line {s l : PyStr} (h : l ∈ pySplitNl s) : l <:+: s := by
  obtain ⟨hd, hs, heq, hpre, hinf⟩ := split_head_shape s
  rw [heq] at h
  rcases List.mem_cons.mp h with rfl | h2
  · exact hpre.isInfix
  · exact hinf l h2

theorem mem_pyJoinNl {c : Char} : ∀ ls : List PyStr, c ∈ pyJoinNl ls →
    c = '\n' ∨ ∃ l ∈ ls, c ∈ l := by
  intro ls
  induction ls with
  | nil => intro h; cases h
  | cons l ls2 ih =>
    intro hmem
    cases ls2 with
    | nil => exact Or.inr ⟨l, by simp, hmem⟩
    | cons m ms =>
      rcases List.mem_append.mp hmem with h | h
      · exact Or.inr ⟨l, by simp, h⟩
      rcases List.mem_cons.mp h with h2 | h2
      · exact Or.inl h2
      rcases ih h2 with h3 | ⟨l2, hl2, hcl2⟩
      · exact Or.inl h3
      · exact Or.inr ⟨l2, by simp [hl2], hcl2⟩

theorem pyLStrip_suffix (s : PyStr) : pyLStrip s <:+ s := List.dropWhile_suffix _

theorem pyRStrip_prefix_self (s : PyStr) : pyRStrip s <+: s := by
  rw [pyRStrip_eq_rdropWhile]
  exact List.rdropWhile_prefix _ _

theorem pyStrip_infix_self (s : PyStr) : pyStrip s <:+: s :=
  (pyRStrip_prefix_self (pyLStrip s)).isInfix.trans (pyLStrip_suffix s).isInfix

theorem pyStrip_idem (s : PyStr) : pyStrip (pyStrip s) = pyStrip s := by
  by_cases h : pyStrip s = []
  · rw [h]; rfl
  · have hg := pyStrip_good s h
    exact pyStrip_fix (by rw [headD_of_ne_nil h 'x' ' ']; exact hg.1)
      (by rw [getLastD_of_ne_nil h 'x' ' ']; exact hg.2)

theorem dropCaps_id {s : PyStr} (h : hasCapsLine s = false) : dropCapsLines s = s := by
  rw [dropCapsLines]
  have hall : ∀ l ∈ pySplitNl s, (!capsShort l) = true := by
    intro l hl
    have := List.any_eq_false.mp h l hl
    cases hb : capsShort l with
    | true => exact absurd hb this
    | false => simp
  rw [List.filter_eq_self.mpr hall, join_split]

theorem mem_dropCapsLines {c : Char} {s : PyStr} (h : c ∈ dropCapsLines s) :
    c = '\n' ∨ c ∈ s := by
  rw [dropCapsLines] at h
  rcases mem_pyJoinNl _ h with h2 | ⟨l, hl, hcl⟩
  · exact Or.inl h2
  · exact Or.inr ((infix_of_line (List.mem_of_mem_filter hl)).subset hcl)

theorem mem_trimLines {c : Char} {s : PyStr} (h : c ∈ trimLines s) :
    c = '\n' ∨ c ∈ s := by
  rw [trimLines] at h
  rcases mem_pyJoinNl _ h with h2 | ⟨l, hl, hcl⟩
  · exact Or.inl h2
  · obtain ⟨l0, hl0, rfl⟩ := List.mem_map.mp hl
    exact Or.inr ((infix_of_line hl0).subset ((pyStrip_infix_self l0).subset hcl))

theorem split_trimLines (s : PyStr) :
    pySplitNl (trimLines s) = (pySplitNl s).map pyStrip := by
  rw [trimLines]
  apply split_join
  · intro l hl
    obtain ⟨l0, hl0, rfl⟩ := List.mem_map.mp hl
    intro hmem
    exact split_no_nl s l0 hl0 ((pyStrip_infix_self l0).subset hmem)
  · intro hnil
    exact pySplitNl_ne_nil s (List.map_eq_nil_iff.mp hnil)

theorem dbl_cons (c : Char) (r : PyStr) :
    hasDoubleST (c :: r) = ((isST c && isST (r.headD 'q')) || hasDoubleST r) := by
  cases r with
  | nil =>
    show false = ((isST c && isST 'q') || false)
    rw [show isST 'q' = false from rfl, Bool.and_false, Bool.or_false]
  | cons e r2 => rfl

theorem dbl_append_right {b : PyStr} (a : PyStr) (h : hasDoubleST b = true) :
    hasDoubleST (a ++ b) = true := by
  induction a with
  | nil => exact h
  | cons c t ih => rw [List.cons_append, dbl_cons, ih, Bool.or_true]

theorem dbl_append_left {a : PyStr} (b : PyStr) (h : hasDoubleST a = true) :
    hasDoubleST (a ++ b) = true := by
  induction a with
  | nil => cases h
  | cons c t ih =>
    rw [dbl_cons] at h
    rw [List.cons_append, dbl_cons]
    rcases Bool.or_eq_true_iff.mp h with hp | hd
    · cases t with
      | nil =>
        rw [show (([] : PyStr).headD 'q') = 'q' from rfl,
          show isST 'q' = false from rfl, Bool.and_false] at hp
        cases hp
      | cons a0 t2 =>
        rw [show ((a0 :: t2 : PyStr).headD 'q') = a0 from rfl] at hp
        rw [List.cons_append, show ((a0 :: (t2 ++ b) : PyStr).headD 'q') = a0 from rfl,
          hp, Bool.true_or]
    · rw [ih hd, Bool.or_true]

theorem dbl_append_split {a b : PyStr} (h : hasDoubleST (a ++ b) = true) :
    hasDoubleST a = true ∨ hasDoubleST b = true
      ∨ (isST (a.getLastD 'q') = true ∧ isST (b.headD 'q') = true) := by
  induction a with
  | nil => exact Or.inr (Or.inl h)
  | cons c t ih =>
    rw [List.cons_append, dbl_cons] at h
    rcases Bool.or_eq_true_iff.mp h with hp | hd
    · rcases (Bool.and_eq_true _ _).mp hp with ⟨hc, hh⟩
      cases t with
      | nil =>
        rw [List.nil_append] at hh
        exact Or.inr (Or.inr ⟨by rw [List.getLastD_cons]; exact hc, hh⟩)
      | cons a0 t2 =>
        rw [List.cons_append,
          show ((a0 :: (t2 ++ b) : PyStr).headD 'q') = a0 from rfl] at hh
        refine Or.inl ?_
        rw [dbl_cons, show ((a0 :: t2 : PyStr).headD 'q') = a0 from rfl, hc, hh]
        rfl
    · rcases ih hd with h1 | h2 | ⟨h3a, h3b⟩
      · refine Or.inl ?_
        rw [dbl_cons, h1, Bool.or_true]
      · exact Or.inr (Or.inl h2)
      · cases t with
        | nil =>
          rw [show (([] : PyStr).getLastD 'q') = 'q' from rfl] at h3a
          rw [show isST 'q' = false from rfl] at h3a
          cases h3a
        | cons a0 t2 =>
          refine Or.inr (Or.inr ⟨?_, h3b⟩)
          rw [List.getLastD_cons, getLastD_of_ne_nil (by simp) c 'q']
          exact h3a

theorem dbl_infix {u s : PyStr} (hinf : u <:+: s) (h : hasDoubleST s = false) :
    hasDoubleST u = false := by
  cases hu : hasDoubleST u with
  | false => rfl
  | true =>
    obtain ⟨a, b, rfl⟩ := hinf
    rw [List.append_assoc, dbl_append_right a (dbl_append_left b hu)] at h
    cases h

theorem dbl_join : ∀ ls : List PyStr, (∀ l ∈ ls, hasDoubleST l = false) →
    hasDoubleST (pyJoinNl ls) = false := by
  intro ls
  induction ls with
  | nil => intro _; rfl
  | cons l ls2 ih =>
    intro hall
    cases ls2 with
    | nil => exact hall l (by simp)
    | cons m ms =>
      show hasDoubleST (l ++ '\n' :: pyJoinNl (m :: ms)) = false
      cases hd : hasDoubleST (l ++ '\n' :: pyJoinNl (m :: ms)) with
      | false => rfl
      | true =>
        exfalso
        rcases dbl_append_split hd with h1 | h2 | ⟨_, h3⟩
        · rw [hall l (by simp)] at h1
          cases h1
        · rw [dbl_cons, show isST '\n' = false from rfl, Bool.false_and,
            Bool.false_or] at h2
          rw [ih (fun x hx => hall x (by simp [hx])) ] at h2
          cases h2
        · rw [show (('\n' :: pyJoinNl (m :: ms)).headD 'q') = '\n' from rfl,
            show isST '\n' = false from rfl] at h3
          cases h3

theorem collapseSTAux_true_head :
    ∀ s : PyStr, isST ((collapseSTAux s true).headD 'q') = false := by
  intro s
  induction s with
  | nil => rfl
  | cons c t ih =>
    rw [collapseSTAux_cons]
    cases hc : isST c with
    | true => rw [if_pos (by simp [hc]), if_pos rfl]; exact ih
    | false =>
      rw [if_neg (by simp [hc]), show ((c :: collapseSTAux t false).headD 'q') = c from rfl]
      exact hc

theorem collapseSTAux_false_head {s : PyStr} (h : isST (s.headD 'q') = false) :
    isST ((collapseSTAux s false).headD 'q') = false := by
  cases s with
  | nil => rfl
  | cons c t =>
    rw [show ((c :: t : PyStr).headD 'q') = c from rfl] at h
    rw [collapseSTAux_cons, if_neg (by simp [h]),
      show ((c :: collapseSTAux t false).headD 'q') = c from rfl]
    exact h

theorem collapseST_no_dbl : ∀ (s : PyStr) (b : Bool),
    hasDoubleST (collapseSTAux s b) = false := by
  intro s
  induction s with
  | nil => intro b; rfl
  | cons c t ih =>
    intro b
    rw [collapseSTAux_cons]
    cases hc : isST c with
    | false =>
      rw [if_neg (by simp [hc]), dbl_cons, hc, Bool.false_and, Bool.false_or]
      exact ih false
    | true =>
      rw [if_pos (by simp [hc])]
      cases b with
      | true => exact ih true
      | false =>
        simp only [Bool.false_eq_true, if_false]
        by_cases hw : 1 ≤ (t.takeWhile isST).length
        · rw [if_pos hw, dbl_cons, collapseSTAux_true_head, Bool.and_false,
            Bool.false_or]
          exact ih true
        · rw [if_neg hw, dbl_cons]
          have hth : isST (t.headD 'q') = false := by
            cases t with
            | nil => rfl
            | cons e r =>
              rw [show ((e :: r : PyStr).headD 'q') = e from rfl]
              cases he : isST e with
              | false => rfl
              | true =>
                exfalso
                apply hw
                rw [List.takeWhile_cons, he]
                simp
          rw [collapseSTAux_false_head hth, Bool.and_false, Bool.false_or]
          exact ih false

theorem stripped_head {l : PyStr} (hfix : pyStrip l = l) (hne : l ≠ []) :
    pyIsSpace (l.headD ' ') = false := by
  have h := (pyStrip_good l (by rw [hfix]; exact hne)).1
  rw [hfix] at h
  exact h

theorem stripped_last {l : PyStr} (hfix : pyStrip l = l) (hne : l ≠ []) :
    pyIsSpace (l.getLastD ' ') = false := by
  have h := (pyStrip_good l (by rw [hfix]; exact hne)).2
  rw [hfix] at h
  exact h

theorem join_lstrip : ∀ ls : List PyStr, (∀ l ∈ ls, pyStrip l = l) →
    pyLStrip (pyJoinNl ls) = pyJoinNl (ls.dropWhile (fun l => l.isEmpty)) := by
  intro ls
  induction ls with
  | nil => intro _; rfl
  | cons l ls2 ih =>
    intro hall
    cases ls2 with
    | nil =>
      by_cases hl : l = []
      · subst hl; rfl
      · show pyLStrip l = pyJoinNl (List.dropWhile (fun l => l.isEmpty) [l])
        rw [List.dropWhile_cons,
          if_neg (by simpa [List.isEmpty_iff] using hl)]
        exact pyLStrip_eq_self
          (by rw [headD_of_ne_nil hl 'x' ' ']
              exact stripped_head (hall l (by simp)) hl)
    | cons m ms =>
      by_cases hl : l = []
      · subst hl
        show pyLStrip ([] ++ '\n' :: pyJoinNl (m :: ms))
          = pyJoinNl (List.dropWhile (fun l => l.isEmpty) ([] :: m :: ms))
        rw [List.nil_append, List.dropWhile_cons, if_pos (by simp)]
        rw [show pyLStrip ('\n' :: pyJoinNl (m :: ms))
            = pyLStrip (pyJoinNl (m :: ms)) from by
          rw [pyLStrip, List.dropWhile_cons,
            if_pos (by show pyIsSpace '\n' = true; rfl)]
          rfl]
        exact ih (fun x hx => hall x (by simp [hx]))
      · show pyLStrip (l ++ '\n' :: pyJoinNl (m :: ms))
          = pyJoinNl (List.dropWhile (fun l => l.isEmpty) (l :: m :: ms))
        have hfixl : pyLStrip l = l :=
          pyLStrip_eq_self
            (by rw [headD_of_ne_nil hl 'x' ' ']
                exact stripped_head (hall l (by simp)) hl)
        rw [List.dropWhile_cons, if_neg (by simpa [List.isEmpty_iff] using hl)]
        have hstep : pyLStrip (l ++ '\n' :: pyJoinNl (m :: ms))
            = pyLStrip l ++ '\n' :: pyJoinNl (m :: ms) := by
          rw [pyLStrip, dropWhile_append_pos pyIsSpace _
            (by show pyLStrip l ≠ []; rw [hfixl]; exact hl)]
          rfl
        rw [hstep, hfixl]
        rfl

theorem join_concat : ∀ (a : List PyStr) (x : PyStr), a ≠ [] →
    pyJoinNl (a ++ [x]) = pyJoinNl a ++ '\n' :: x := by
  intro a
  induction a with
  | nil => intro x h; exact absurd rfl h
  | cons l ls ih =>
    intro x _
    cases ls with
    | nil => rfl
    | cons m ms =>
      show pyJoinNl (l :: ((m :: ms) ++ [x]))
        = (l ++ '\n' :: pyJoinNl (m :: ms)) ++ '\n' :: x
      have hne2 : (m :: ms) ++ [x] ≠ [] := by simp
      show l ++ '\n' :: pyJoinNl ((m :: ms) ++ [x]) = _
      rw [ih x (by simp), List.append_assoc]
      rfl

theorem join_reverse : ∀ ls : List PyStr,
    (pyJoinNl ls).reverse = pyJoinNl ((ls.map List.reverse).reverse) := by
  intro ls
  induction ls with
  | nil => rfl
  | cons l ls2 ih =>
    cases ls2 with
    | nil => rfl
    | cons m ms =>
      rw [List.map_cons, List.reverse_cons, join_concat _ _ (by simp), ← ih]
      show (l ++ '\n' :: pyJoinNl (m :: ms)).reverse = _
      rw [List.reverse_append, List.reverse_cons, List.append_assoc]
      rfl

theorem headD_reverse (l : PyStr) (d : Char) : l.reverse.headD d = l.getLastD d := by
  have h := getLastD_reverse l.reverse d
  rw [List.reverse_reverse] at h
  exact h.symm

theorem stripped_reverse {l : PyStr} (hfix : pyStrip l = l) :
    pyStrip l.reverse = l.reverse := by
  by_cases hl : l = []
  · subst hl; rfl
  · have hrne : l.reverse ≠ [] := by simpa using hl
    apply pyStrip_fix
    · rw [headD_of_ne_nil hrne 'x' ' ', headD_reverse]
      exact stripped_last hfix hl
    · rw [getLastD_of_ne_nil hrne 'x' ' ', getLastD_reverse]
      exact stripped_head hfix hl

theorem isEmpty_reverse (l : PyStr) : l.reverse.isEmpty = l.isEmpty := by
  cases h : l.isEmpty with
  | true =>
    rw [List.isEmpty_iff.mp h]
    rfl
  | false =>
    cases hr : l.reverse.isEmpty with
    | false => rfl
    | true =>
      have := List.isEmpty_iff.mp hr
      rw [List.reverse_eq_nil_iff] at this
      rw [this] at h
      cases h

theorem dropWhile_map_general {α β : Type} (f : α → β) (p : β → Bool) :
    ∀ l : List α, (l.map f).dropWhile p = (l.dropWhile (fun a => p (f a))).map f := by
  intro l
  induction l with
  | nil => rfl
  | cons a t ih =>
    rw [List.map_cons, List.dropWhile_cons, List.dropWhile_cons]
    cases hp : p (f a) with
    | true => simp only [if_true]; exact ih
    | false => simp only [Bool.false_eq_true, if_false, List.map_cons]

theorem join_rstrip : ∀ ls : List PyStr, (∀ l ∈ ls, pyStrip l = l) →
    pyRStrip (pyJoinNl ls) = pyJoinNl (ls.rdropWhile (fun l => l.isEmpty)) := by
  intro ls hall
  rw [pyRStrip, ← pyLStrip, join_reverse]
  have hall2 : ∀ x ∈ (ls.map List.reverse).reverse, pyStrip x = x := by
    intro x hx
    rw [List.mem_reverse] at hx
    obtain ⟨l0, hl0, rfl⟩ := List.mem_map.mp hx
    exact stripped_reverse (hall l0 hl0)
  rw [join_lstrip _ hall2, join_reverse, List.rdropWhile]
  congr 1
  congr 1
  rw [← List.map_reverse, dropWhile_map_general]
  simp [List.map_map, isEmpty_reverse]

theorem join_strip {ls : List PyStr} (hall : ∀ l ∈ ls, pyStrip l = l) :
    pyStrip (pyJoinNl ls)
      = pyJoinNl ((ls.dropWhile (fun l => l.isEmpty)).rdropWhile
          (fun l => l.isEmpty)) := by
  rw [pyStrip, join_lstrip ls hall]
  apply join_rstrip
  intro l hl
  exact hall l ((List.dropWhile_suffix _).subset hl)

theorem trimLines_fix_of_lines {s : PyStr}
    (hall : ∀ l ∈ pySplitNl s, pyStrip l = l) : trimLines s = s := by
  rw [trimLines]
  have hmap : (pySplitNl s).map pyStrip = pySplitNl s := by
    rw [List.map_congr_left hall]
    exact List.map_id _
  rw [hmap, join_split]

theorem clean_no_cr (x : PyStr) : '\r' ∉ clean_text x := by
  simp only [clean_text]
  intro hmem
  have h1 := (pyStrip_infix_self _).subset hmem
  rcases mem_trimLines h1 with hnl | h2
  · exact absurd hnl (by decide)
  rcases mem_collapseSTAux _ _ h2 with h3 | hsp
  · rcases mem_dropCapsLines h3 with hnl | h4
    · exact absurd hnl (by decide)
    rcases mem_collapseNlAux _ _ h4 with h5 | hnl
    · rw [pySubPageNum] at h5
      have h6 := mem_subPN _ _ _ h5
      have h7 := mem_subHyphen h6
      rcases mem_replFF _ h7 with h8 | hnl
      · exact replCR_no_cr _ h8
      · exact absurd hnl (by decide)
    · exact absurd hnl (by decide)
  · exact absurd hsp (by decide)

theorem clean_no_ff (x : PyStr) : '\x0c' ∉ clean_text x := by
  simp only [clean_text]
  intro hmem
  have h1 := (pyStrip_infix_self _).subset hmem
  rcases mem_trimLines h1 with hnl | h2
  · exact absurd hnl (by decide)
  rcases mem_collapseSTAux _ _ h2 with h3 | hsp
  · rcases mem_dropCapsLines h3 with hnl | h4
    · exact absurd hnl (by decide)
    rcases mem_collapseNlAux _ _ h4 with h5 | hnl
    · rw [pySubPageNum] at h5
      have h6 := mem_subPN _ _ _ h5
      have h7 := mem_subHyphen h6
      exact replFF_no_ff _ h7
    · exact absurd hnl (by decide)
  · exact absurd hsp (by decide)

theorem clean_no_dbl (x : PyStr) : hasDoubleST (clean_text x) = false := by
  simp only [clean_text]
  apply dbl_infix (pyStrip_infix_self _)
  rw [trimLines]
  apply dbl_join
  intro l hl
  obtain ⟨l0, hl0, rfl⟩ := List.mem_map.mp hl
  apply dbl_infix (pyStrip_infix_self l0)
  apply dbl_infix (infix_of_line hl0)
  exact collapseST_no_dbl _ false

theorem strip_trimLines_lines (s : PyStr) :
    ∀ l ∈ pySplitNl (pyStrip (trimLines s)), pyStrip l = l := by
  have hallLS : ∀ l ∈ (pySplitNl s).map pyStrip, pyStrip l = l := by
    intro l hl
    obtain ⟨l0, _, rfl⟩ := List.mem_map.mp hl
    exact pyStrip_idem l0
  have hstrip := join_strip hallLS
  have htl : trimLines s = pyJoinNl ((pySplitNl s).map pyStrip) := rfl
  by_cases h2 : (((pySplitNl s).map pyStrip).dropWhile
      (fun l => l.isEmpty)).rdropWhile (fun l => l.isEmpty) = []
  · rw [htl, hstrip, h2]
    intro l hl
    have : l = [] := by
      simpa [pyJoinNl, pySplitNl] using hl
    rw [this]
    rfl
  · rw [htl, hstrip, split_join _ ?no_nl h2]
    case no_nl =>
      intro l hl
      have hmem : l ∈ (pySplitNl s).map pyStrip :=
        (List.dropWhile_suffix _).subset ((List.rdropWhile_prefix _ _).subset hl)
      obtain ⟨l0, hl0, rfl⟩ := List.mem_map.mp hmem
      intro hnl
      exact split_no_nl s l0 hl0 ((pyStrip_infix_self l0).subset hnl)
    intro l hl
    apply hallLS
    exact (List.dropWhile_suffix _).subset ((List.rdropWhile_prefix _ _).subset hl)

theorem clean_trimLines_fix (x : PyStr) :
    trimLines (clean_text x) = clean_text x := by
  apply trimLines_fix_of_lines
  show ∀ l ∈ pySplitNl (clean_text x), pyStrip l = l
  simp only [clean_text]
  exact strip_trimLines_lines _

theorem clean_pyStrip_fix (x : PyStr) : pyStrip (clean_text x) = clean_text x := by
  simp only [clean_text]
  exact pyStrip_idem _

/-- **C2, amended.**  `clean_text` is *not* idempotent in general: a
pass can reintroduce a pattern it rewrites — rejoining a `\w-\n\w`
hyphen break consumes the character after the break, so a second pass
can find a new match (`clean_text_not_idempotent_cex`).  It *is*
idempotent on every input whose cleaned form carries no residual match
of the four content rules: if `clean_text x` contains no
hyphen-line-break match, no page-number line match, no triple newline
and no short all-caps line, then a second pass is the identity.  (The
remaining steps never re-fire on an output of `clean_text`: it contains
no `\r` and no form feed, has no run of two or more spaces/tabs, and is
fixed by per-line trimming and whole-text stripping — proved
unconditionally in the lemmas above.) -/
theorem clean_text_conditional_idem (x : PyStr)
    (h1 : hasHyphenMatch (clean_text x) = false)
    (h2 : hasPageNumMatch (clean_text x) true = false)
    (h3 : hasTripleNl (clean_text x) = false)
    (h4 : hasCapsLine (clean_text x) = false) :
    clean_text (clean_text x) = clean_text x := by
  have hcr := clean_no_cr x
  have hff := clean_no_ff x
  have hdbl := clean_no_dbl x
  have htl := clean_trimLines_fix x
  have hps := clean_pyStrip_fix x
  generalize hy : clean_text x = y at h1 h2 h3 h4 hcr hff hdbl htl hps ⊢
  have h5 : collapseNl y = y := collapseNl_id y h3
  have h7 : collapseST y = y := collapseST_id_aux y hdbl
  show clean_text y = y
  simp only [clean_text]
  rw [replCRLF_id hcr, replCR_id hcr, replFF_id hff, subHyphen_id y h1,
    pySubPageNum_id h2, h5, dropCaps_id h4, h7, htl, hps]

theorem clean_text_conditional_idem_witness :
    (hasHyphenMatch (clean_text (pstr "Hello world.")) = false
        ∧ hasPageNumMatch (clean_text (pstr "Hello world.")) true = false
        ∧ hasTripleNl (clean_text (pstr "Hello world.")) = false
        ∧ hasCapsLine (clean_text (pstr "Hello world.")) = false)
      ∧ clean_text (clean_text (pstr "Hello world."))
        = clean_text (pstr "Hello world.") :=
  ⟨⟨by decide, by decide, by decide, by decide⟩,
   clean_text_conditional_idem (pstr "Hello world.")
     (by decide) (by decide) (by decide) (by decide)⟩

end Ingest
